import Mathlib

/-!
# Verification of spidertrot.py

A shallow embedding of the Spidertrot traversal solver and its companion
functions, together with theorems settling the specification's claims.

The Python program manipulates:
* `Node` objects (a name and an integer `value`); equality and hashing of
  nodes are by `name` alone, so dictionary keys are resolved by name.
* dictionaries from nodes to integer counts, iterated in a fixed order;
  these are embedded as association lists `List (Node × Int)` whose list
  order is the iteration order, with lookups keyed by node name.

Machine integers are Python arbitrary-precision integers, embedded as `Int`.
-/

namespace Spidertrot

/-- A node of the puzzle: a name and an integer visit budget (`value`).
Python compares and hashes nodes by `name` alone. -/
structure Node where
  name : String
  value : Int
deriving DecidableEq, Repr

/-- The solver's working state: an association list from nodes to remaining
counts, in iteration order.  Lookups are keyed by node name, matching the
Python dictionary whose keys hash and compare by name. -/
abbrev Dict := List (Node × Int)

/-- `node_dict[n]` : value of the first entry whose key has the given name
(Python dicts cannot hold two name-equal keys, so on representable states
the name determines the entry).  Absent names give a junk value `0`;
the program only looks up present keys. -/
def getv : Dict → String → Int
  | [], _ => 0
  | (k, v) :: rest, s => if k.name = s then v else getv rest s

/-- `node_dict[s] = w` : overwrite the value of the first entry with the
given name, keeping the entry's position. -/
def setv : Dict → String → Int → Dict
  | [], _, _ => []
  | (k, v) :: rest, s, w => if k.name = s then (k, w) :: rest else (k, v) :: setv rest s w

/-- `node_dict[s] -= 1` : decrement the value of the first entry with the
given name. -/
def decv : Dict → String → Dict
  | [], _ => []
  | (k, v) :: rest, s => if k.name = s then (k, v - 1) :: rest else (k, v) :: decv rest s

/-- `{n: node_dict[n] for n in node_dict if n is not min_key}` : drop the
entry of the given key, keeping every other entry in order. -/
def removev (d : Dict) (s : String) : Dict :=
  d.filter (fun p => ¬(p.1.name = s))

/-- `node_dict.keys()` in iteration order. -/
def keysD (d : Dict) : List Node :=
  d.map (fun p => p.1)

/-- `node_dict.update(other)` : write each of `other`'s entries into `d`
(every key of `other` is already a key of `d` at the call sites, so this
overwrites values, preserving `d`'s order). -/
def updateAll (d : Dict) (other : Dict) : Dict :=
  other.foldl (fun acc p => setv acc p.1.name p.2) d

/-- Sum of the stored counts. -/
def sumv (d : Dict) : Int :=
  (d.map (fun p => p.2)).sum

/-- Termination measure for `get_path_list_1`: total of the positive parts
of the counts; each recursive call decrements a positive count. -/
def sumPos (d : Dict) : Nat :=
  (d.map (fun p => p.2.toNat)).sum

/-- The loop `for n in node_dict: if node_dict[n] != 0: return None` of
`get_path_list_1`, as a predicate: every count is zero. -/
def allZero (d : Dict) : Bool :=
  d.all (fun p => p.2 = 0)

/-- The minimum-count scan of `get_path_list_2` (lines 160-167): start from
the first entry, replace whenever a strictly smaller count appears; hence
the first entry attaining the minimal count is kept. -/
def minEntryD (d : Dict) : Node × Int :=
  match d with
  | [] => (⟨"", 0⟩, 0)
  | e :: rest => rest.foldl (fun b p => if p.2 < b.2 then p else b) e

lemma getv_decv_le (d : Dict) (s s' : String) :
    getv (decv d s') s ≤ getv d s := by
  induction d with
  | nil => simp [getv, decv]
  | cons e rest ih =>
    obtain ⟨k, v⟩ := e
    simp only [decv]
    by_cases hk : k.name = s'
    · rw [if_pos hk]
      simp only [getv]
      by_cases hs : k.name = s
      · rw [if_pos hs, if_pos hs]; omega
      · rw [if_neg hs, if_neg hs]
    · rw [if_neg hk]
      simp only [getv]
      by_cases hs : k.name = s
      · rw [if_pos hs, if_pos hs]
      · rw [if_neg hs, if_neg hs]; exact ih

lemma getv_decv_self (d : Dict) (s : String) (h : getv d s > 0) :
    getv (decv d s) s = getv d s - 1 := by
  induction d with
  | nil => simp [getv] at h
  | cons e rest ih =>
    obtain ⟨k, v⟩ := e
    by_cases hk : k.name = s
    · simp [getv, decv, hk]
    · simp only [getv, if_neg hk] at h
      simp only [decv, if_neg hk, getv]
      exact ih h

lemma sumPos_decv (d : Dict) (s : String) (h : getv d s > 0) :
    sumPos (decv d s) < sumPos d := by
  induction d with
  | nil => simp [getv] at h
  | cons e rest ih =>
    obtain ⟨k, v⟩ := e
    by_cases hk : k.name = s
    · simp only [getv, if_pos hk] at h
      simp only [decv, if_pos hk, sumPos, List.map_cons, List.sum_cons]
      omega
    · simp only [getv, if_neg hk] at h
      simp only [decv, if_neg hk, sumPos, List.map_cons, List.sum_cons] at ih ⊢
      have := ih h
      omega

lemma foldlMin_eq_or_mem (l : List (Node × Int)) (b : Node × Int) :
    (l.foldl (fun b p => if p.2 < b.2 then p else b) b) = b ∨
    (l.foldl (fun b p => if p.2 < b.2 then p else b) b) ∈ l := by
  induction l generalizing b with
  | nil => left; rfl
  | cons p ps ih =>
    by_cases h : p.2 < b.2
    · simp only [List.foldl_cons, if_pos h]
      rcases ih p with h1 | h1
      · right; rw [h1]; exact List.mem_cons_self _ _
      · right; exact List.mem_cons_of_mem _ h1
    · simp only [List.foldl_cons, if_neg h]
      rcases ih b with h1 | h1
      · left; exact h1
      · right; exact List.mem_cons_of_mem _ h1

lemma minEntryD_mem (d : Dict) (hd : d ≠ []) : minEntryD d ∈ d := by
  match d, hd with
  | e :: rest, _ =>
    rcases foldlMin_eq_or_mem rest e with h | h
    · simp [minEntryD, h]
    · simp only [minEntryD]
      exact List.mem_cons_of_mem _ h

/-- The pivot selection of the two-node case (lines 127-128):
`min_n = min(node_dict.keys(), key=lambda x: x.value)` keeps the first key
on ties, and `max_n` is the other key.  The selection compares the nodes'
stored `value` attributes, not their counts in the mapping. -/
def pick2 (k1 k2 : Node) : Node × Node :=
  if k2.value < k1.value then (k2, k1) else (k1, k2)

/-- The reflection loop of the two-node case (lines 131-151), compiled with
the two counts held in locals: `p` is `node_dict[min_n]`, `q` is
`node_dict[max_n]`, `atMax` records whether `curr_n` is `max_n` (it starts
there and flips after every step).  Returns the accumulated sub-path (or
`none` on failure) together with the final two counts. -/
def reflect (p q t : Int) (atMax : Bool) (acc : List Node) (minN maxN : Node) :
    Option (List Node) × Int × Int :=
  if p + q > t then
    if atMax then
      if q ≥ 1 then reflect p (q - 1) t false (acc ++ [maxN]) minN maxN
      else (none, p, q)
    else
      if p ≥ 1 then reflect (p - 1) q t true (acc ++ [minN]) minN maxN
      else (none, p, q)
  else (some acc, p, q)
termination_by (p + q - t).toNat
decreasing_by
  all_goals
    simp_wf
    omega

/-- The inner `while node_dict[n] > 0 and node_dict[min_key] > 0` loop of
the linking phase (lines 184-188): append `min_key` then `n`, decrement
both counts. -/
def mergeInner (d : Dict) (mk n : Node) (acc : List Node) : Dict × List Node :=
  if getv d n.name > 0 ∧ getv d mk.name > 0 then
    mergeInner (decv (decv d n.name) mk.name) mk n (acc ++ [mk, n])
  else (d, acc)
termination_by (getv d n.name).toNat
decreasing_by
  simp_wf
  rename_i h
  have h1 : getv (decv d n.name) n.name = getv d n.name - 1 :=
    getv_decv_self d n.name h.1
  have h2 : getv (decv (decv d n.name) mk.name) n.name ≤ getv (decv d n.name) n.name :=
    getv_decv_le _ _ _
  omega

/-- The outer `for n in new_node_dict` loop of the linking phase
(lines 177-188), with its leading `if node_dict[min_key] <= 0: break`. -/
def mergeOuter (d : Dict) (mk : Node) (ks : List Node) (acc : List Node) :
    List Node × Dict :=
  match ks with
  | [] => (acc, d)
  | n :: rest =>
    if getv d mk.name ≤ 0 then (acc, d)
    else
      let r := mergeInner d mk n acc
      mergeOuter r.1 mk rest r.2

/-- `get_path_list_2(node_dict, target_value)` (lines 87-190).  The Python
function mutates `node_dict` in place, so the embedding threads the
dictionary: the result is the returned path (or `none`) together with the
final state of `node_dict`. -/
def gpl2 (d : Dict) (t : Int) : Option (List Node) × Dict :=
  match d with
  | [] => (some [], [])
  | [(n, v)] =>
    if v = 1 then (some [n], [(n, v)]) else (none, [(n, v)])
  | [(k1, v1), (k2, v2)] =>
    let mn := (pick2 k1 k2).1
    let mx := (pick2 k1 k2).2
    let d0 : Dict := [(k1, v1), (k2, v2)]
    let p := getv d0 mn.name
    let q := getv d0 mx.name
    let r := reflect p q t true [] mn mx
    (r.1, setv (setv d0 mn.name r.2.1) mx.name r.2.2)
  | e1 :: e2 :: e3 :: rest =>
    let d0 : Dict := e1 :: e2 :: e3 :: rest
    let mk := (minEntryD d0).1
    let c := getv d0 mk.name
    let nd := removev d0 mk.name
    let r := gpl2 nd (t + c)
    match r.1 with
    | none => (none, d0)
    | some l =>
      let d2 := updateAll d0 r.2
      let m := mergeOuter d2 mk (keysD r.2) l
      (some m.1, m.2)
termination_by d.length
decreasing_by
  simp_wf
  have hmem : minEntryD (e1 :: e2 :: e3 :: rest) ∈ (e1 :: e2 :: e3 :: rest) :=
    minEntryD_mem _ (by simp)
  exact List.length_filter_lt_length_iff_exists.mpr
    ⟨minEntryD (e1 :: e2 :: e3 :: rest), hmem, by simp⟩

/-- Convenience projection: the path computed by `get_path_list_2`. -/
def gpl2Path (d : Dict) (t : Int) : Option (List Node) :=
  (gpl2 d t).1

/-- The guard `(not curr_path_list or curr_path_list[-1] != n)` of
`get_path_list_1` (line 73). -/
def allowedNext (curr : List Node) (n : Node) : Bool :=
  match curr.getLast? with
  | none => true
  | some m => ¬(m.name = n.name)

/-- The key-search loop of `get_path_list_1` (lines 72-85): try each pending
key in order; on the first admissible key whose recursive call succeeds,
return that path; after the loop, succeed with the current path exactly when
every count is exhausted. -/
def gpl1Go (d : Dict) (curr : List Node) (pending : List Node) : Option (List Node) :=
  match pending with
  | [] => if allZero d then some curr else none
  | n :: ps =>
    if allowedNext curr n ∧ getv d n.name > 0 then
      match gpl1Go (decv d n.name) (curr ++ [n]) (keysD (decv d n.name)) with
      | some path => some path
      | none => gpl1Go d curr ps
    else gpl1Go d curr ps
termination_by (sumPos d, pending.length)
decreasing_by
  · apply Prod.Lex.left
    rename_i h
    have hp : getv d n.name > 0 := h.2
    clear h
    induction d with
    | nil => simp [getv] at hp
    | cons e rest ih =>
      obtain ⟨k, v⟩ := e
      by_cases hk : k.name = n.name
      · simp only [getv, if_pos hk] at hp
        simp only [decv, if_pos hk, sumPos, List.map_cons, List.sum_cons]
        omega
      · simp only [getv, if_neg hk] at hp
        simp only [decv, if_neg hk, sumPos, List.map_cons, List.sum_cons] at ih ⊢
        have := ih hp
        omega
  · apply Prod.Lex.right
    simp
  · apply Prod.Lex.right
    simp

/-- `get_path_list_1(node_dict, curr_path_list)` (lines 37-85): the
brute-force backtracking search.  It never writes to `node_dict` (each step
decrements a private copy), so the embedding is a pure reader. -/
def gpl1 (d : Dict) (curr : List Node) : Option (List Node) :=
  gpl1Go d curr (keysD d)

/-- The single-quote character, used by the output format. -/
def quoteS : String := (Char.ofNat 39).toString

/-- One printed line `Move from '<A>' to '<B>'.` of `output_path`. -/
def moveLine (a b : String) : String :=
  "Move from " ++ quoteS ++ a ++ quoteS ++ " to " ++ quoteS ++ b ++ quoteS ++ "."

/-- `{n: n.value for n in node_list}` (line 198): build the solver's input
from a node list; a repeated name keeps its first position and takes the
later value. -/
def snapshotD (nodes : List Node) : Dict :=
  nodes.foldl
    (fun acc n =>
      if acc.any (fun p => p.1.name = n.name) then setv acc n.name n.value
      else acc ++ [(n, n.value)])
    []

/-- `output_path(node_list)` (lines 192-207), as the list of printed lines:
on failure a single `Impossible puzzle.` line; on success the solver's path
is bracketed by the synthetic `start` and `end` markers and one line is
printed per adjacent pair (`str` of a node is its name). -/
def outputPath (nodes : List Node) : List String :=
  match gpl2Path (snapshotD nodes) 0 with
  | none => ["Impossible puzzle."]
  | some path =>
    let full : List String := "start" :: (path.map (fun n => n.name)) ++ ["end"]
    (List.range (full.length - 1)).map
      (fun i => moveLine (full.getD i "") (full.getD (i + 1) ""))

/-! ### Analysis helpers (not part of the source program) -/

/-- The names of a dictionary's keys, in iteration order. -/
def namesD (d : Dict) : List String := d.map (fun p => p.1.name)

/-- A dictionary represents a Python dict exactly when its key names are
pairwise distinct (Python keys compare by name). -/
def NodupNames (d : Dict) : Prop := (namesD d).Nodup

/-- The listed counts, in iteration order. -/
def valsD (d : Dict) : List Int := d.map (fun p => p.2)

/-- The maximum count (`0` for an empty dictionary). -/
def maxvD (d : Dict) : Int := (valsD d).foldr max 0

/-- How many entries attain the maximum count. -/
def numMaxD (d : Dict) : Nat := (valsD d).count (maxvD d)

/-- Every node's stored `value` attribute agrees with its count in the
dictionary — true of every mapping the program itself builds
(`{n: n.value for n in node_list}`). -/
def matchedD (d : Dict) : Prop := ∀ p ∈ d, p.1.value = p.2

instance : DecidablePred NodupNames := fun d =>
  inferInstanceAs (Decidable (namesD d).Nodup)

instance : DecidablePred matchedD := fun d =>
  inferInstanceAs (Decidable (∀ p ∈ d, p.1.value = p.2))

/-! ### The reflection loop: success characterization -/

/-- The two-node reflection loop succeeds exactly when the distance from the
pair's total down to the deficit fits into the maximal alternation length
from the current side: `2x` steps when the current side holds `x ≤ o`, and
`2o + 1` steps when the current side exceeds the other side `o`. -/
lemma reflect_success (p q t : Int) (atMax : Bool) (acc : List Node) (mn mx : Node)
    (hp : 0 ≤ p) (hq : 0 ≤ q) :
    (reflect p q t atMax acc mn mx).1 ≠ none ↔
      (if atMax then p + q - t ≤ (if q ≤ p then 2 * q else 2 * p + 1)
       else p + q - t ≤ (if p ≤ q then 2 * p else 2 * q + 1)) := by
  revert hp hq
  induction p, q, t, atMax, acc, mn, mx using reflect.induct with
  | case1 p q t acc mn mx h1 h2 ih =>
    intro hp hq
    rw [reflect]
    simp only [h1, if_true, ite_true, if_pos h2]
    rw [ih hp (by omega)]
    simp only [if_false, ite_false, Bool.false_eq_true]
    split_ifs <;> omega
  | case2 p q t acc mn mx h1 h2 =>
    intro hp hq
    rw [reflect]
    simp only [h1, if_true, ite_true, if_neg h2]
    simp only [ne_eq, not_true_eq_false, false_iff, not_le]
    split_ifs <;> omega
  | case3 p q t atMax acc mn mx h1 h2 h3 ih =>
    intro hp hq
    simp only [Bool.not_eq_true] at h2
    subst h2
    rw [reflect]
    simp only [h1, if_true, ite_false, Bool.false_eq_true, if_pos h3]
    rw [ih (by omega) hq]
    simp only [if_true, ite_true]
    split_ifs <;> omega
  | case4 p q t atMax acc mn mx h1 h2 h3 =>
    intro hp hq
    simp only [Bool.not_eq_true] at h2
    subst h2
    rw [reflect]
    simp only [h1, if_true, ite_false, Bool.false_eq_true, if_neg h3]
    simp only [ne_eq, not_true_eq_false, false_iff, not_le]
    split_ifs <;> omega
  | case5 p q t atMax acc mn mx h1 =>
    intro hp hq
    rw [reflect]
    simp only [if_neg h1]
    simp only [ne_eq, reduceCtorEq, not_false_eq_true, true_iff]
    cases atMax <;> simp only [ite_true, ite_false, Bool.false_eq_true, if_true] <;>
      split_ifs <;> omega

/-- Success of `get_path_list_2` on a two-node mapping whose counts agree
with the stored `value` attributes: the call succeeds exactly when twice the
larger count is at most the total plus the deficit, plus one when the two
counts differ. -/
lemma gpl2_two_success (k1 k2 : Node) (v1 v2 t : Int) (hne : ¬ k1.name = k2.name)
    (h1 : k1.value = v1) (h2 : k2.value = v2) (hp : 0 ≤ v1) (hq : 0 ≤ v2) :
    (gpl2Path [(k1, v1), (k2, v2)] t ≠ none ↔
      2 * max v1 v2 ≤ v1 + v2 + t + (if v1 = v2 then 0 else 1)) := by
  simp only [gpl2Path, gpl2, pick2, h1, h2]
  by_cases hc : v2 < v1
  · rw [if_pos hc]
    simp only [getv, if_neg hne, if_pos rfl, if_true]
    rw [reflect_success _ _ _ _ _ _ _ hq hp]
    simp only [ite_true, if_true]
    split_ifs <;> omega
  · rw [if_neg hc]
    simp only [getv, if_neg hne, if_pos rfl, if_true]
    rw [reflect_success _ _ _ _ _ _ _ hp hq]
    simp only [ite_true, if_true]
    split_ifs <;> omega

/-! ### Structural lemmas: key names are preserved -/

lemma namesD_setv (d : Dict) (s : String) (w : Int) :
    namesD (setv d s w) = namesD d := by
  induction d with
  | nil => rfl
  | cons e rest ih =>
    obtain ⟨k, v⟩ := e
    by_cases hk : k.name = s
    · simp [setv, namesD, hk]
    · simp only [setv, if_neg hk, namesD, List.map_cons] at ih ⊢
      rw [ih]

lemma namesD_decv (d : Dict) (s : String) :
    namesD (decv d s) = namesD d := by
  induction d with
  | nil => rfl
  | cons e rest ih =>
    obtain ⟨k, v⟩ := e
    by_cases hk : k.name = s
    · simp [decv, namesD, hk]
    · simp only [decv, if_neg hk, namesD, List.map_cons] at ih ⊢
      rw [ih]

lemma namesD_updateAll (d o : Dict) :
    namesD (updateAll d o) = namesD d := by
  induction o generalizing d with
  | nil => rfl
  | cons e rest ih =>
    simp only [updateAll, List.foldl_cons] at ih ⊢
    rw [ih, namesD_setv]

lemma namesD_mergeInner (d : Dict) (mk n : Node) (acc : List Node) :
    namesD (mergeInner d mk n acc).1 = namesD d := by
  induction d, mk, n, acc using mergeInner.induct with
  | case1 d mk n acc h ih =>
    rw [mergeInner, if_pos h]
    rw [ih, namesD_decv, namesD_decv]
  | case2 d mk n acc h =>
    rw [mergeInner, if_neg h]

lemma namesD_mergeOuter (d : Dict) (mk : Node) (ks acc : List Node) :
    namesD (mergeOuter d mk ks acc).2 = namesD d := by
  induction ks generalizing d acc with
  | nil => rfl
  | cons n rest ih =>
    rw [mergeOuter]
    by_cases h : getv d mk.name ≤ 0
    · rw [if_pos h]
    · rw [if_neg h]
      simp only
      rw [ih, namesD_mergeInner]

lemma namesD_gpl2 (d : Dict) (t : Int) :
    namesD (gpl2 d t).2 = namesD d := by
  induction d, t using gpl2.induct with
  | case1 t => rw [gpl2]
  | case2 t n => rw [gpl2]; simp
  | case3 t n v hv => rw [gpl2]; simp [hv]
  | case4 t k1 v1 k2 v2 =>
    rw [gpl2]
    simp only
    rw [namesD_setv, namesD_setv]
  | case5 t e1 e2 e3 rest d0 mk c nd r hnone ih =>
    rw [gpl2]
    simp only
    rw [show (gpl2 nd (t + c)).1 = none from hnone]
  | case6 t e1 e2 e3 rest d0 mk c nd r l hsome ih =>
    rw [gpl2]
    simp only
    rw [show (gpl2 nd (t + c)).1 = some l from hsome]
    simp only
    rw [namesD_mergeOuter, namesD_updateAll]

lemma removev_names_sublist (d : Dict) (s : String) :
    (namesD (removev d s)).Sublist (namesD d) :=
  List.Sublist.map _ (List.filter_sublist d)

lemma not_mem_namesD_removev (d : Dict) (s : String) :
    s ∉ namesD (removev d s) := by
  intro h
  simp only [namesD, removev, List.mem_map] at h
  obtain ⟨p, hp, hpn⟩ := h
  rw [List.mem_filter] at hp
  have := hp.2
  simp only [decide_not, Bool.not_eq_true', decide_eq_false_iff_not] at this
  exact this hpn

lemma nodupNames_removev (d : Dict) (s : String) (h : NodupNames d) :
    NodupNames (removev d s) :=
  (removev_names_sublist d s).nodup h

/-! ### The minimum scan returns the first entry of minimal count -/

lemma foldlMin_split (l : List (Node × Int)) (b : Node × Int) :
    ∃ l1 l2, b :: l = l1 ++ (l.foldl (fun b p => if p.2 < b.2 then p else b) b) :: l2 ∧
      (∀ p ∈ l1, (l.foldl (fun b p => if p.2 < b.2 then p else b) b).2 < p.2) ∧
      (∀ q ∈ b :: l, (l.foldl (fun b p => if p.2 < b.2 then p else b) b).2 ≤ q.2) := by
  induction l generalizing b with
  | nil => exact ⟨[], [], rfl, by simp, by simp⟩
  | cons p ps ih =>
    by_cases h : p.2 < b.2
    · simp only [List.foldl_cons, if_pos h]
      obtain ⟨l1, l2, hsplit, hstrict, hmin⟩ := ih p
      refine ⟨b :: l1, l2, by rw [List.cons_append, ← hsplit], ?_, ?_⟩
      · intro x hx
        rcases List.mem_cons.mp hx with hx | hx
        · subst hx
          exact lt_of_le_of_lt (hmin p (List.mem_cons_self _ _)) h
        · exact hstrict x hx
      · intro x hx
        rcases List.mem_cons.mp hx with hx | hx
        · subst hx
          exact le_of_lt (lt_of_le_of_lt (hmin p (List.mem_cons_self _ _)) h)
        · exact hmin x hx
    · simp only [List.foldl_cons, if_neg h]
      obtain ⟨l1, l2, hsplit, hstrict, hmin⟩ := ih b
      rcases l1 with _ | ⟨x, l1t⟩
      · rw [List.nil_append] at hsplit
        injection hsplit with h1 h2
        refine ⟨[], p :: ps, ?_, by simp, ?_⟩
        · rw [List.nil_append, ← h1]
        · intro y hy
          have hb := hmin b (List.mem_cons_self _ _)
          rcases List.mem_cons.mp hy with hy | hy
          · subst hy; exact hb
          · rcases List.mem_cons.mp hy with hy | hy
            · subst hy; omega
            · exact hmin y (List.mem_cons_of_mem _ hy)
      · rw [List.cons_append] at hsplit
        injection hsplit with h1 h2
        have hb := hstrict x (List.mem_cons_self _ _)
        rw [← h1] at hb
        refine ⟨b :: p :: l1t, l2, ?_, ?_, ?_⟩
        · rw [List.cons_append, List.cons_append, ← h2]
        · intro y hy
          rcases List.mem_cons.mp hy with hy | hy
          · subst hy; exact hb
          · rcases List.mem_cons.mp hy with hy | hy
            · subst hy; omega
            · exact hstrict y (List.mem_cons_of_mem _ hy)
        · intro y hy
          rcases List.mem_cons.mp hy with hy | hy
          · rw [hy]; exact hmin b (List.mem_cons_self _ _)
          · rcases List.mem_cons.mp hy with hy | hy
            · subst hy; omega
            · exact hmin y (List.mem_cons_of_mem _ hy)

lemma find?_of_split {α : Type} (l1 l2 : List α) (r : α) (pred : α → Bool)
    (h1 : ∀ p ∈ l1, pred p = false) (h2 : pred r = true) :
    (l1 ++ r :: l2).find? pred = some r := by
  induction l1 with
  | nil => exact List.find?_cons_of_pos _ h2
  | cons x xs ih =>
    rw [List.cons_append, List.find?_cons_of_neg]
    · exact ih (fun p hp => h1 p (List.mem_cons_of_mem _ hp))
    · rw [h1 x (List.mem_cons_self _ _)]
      simp

lemma find?_min_foldl (b : Node × Int) (l : List (Node × Int)) :
    (b :: l).find? (fun p => decide (∀ q ∈ b :: l, p.2 ≤ q.2)) =
      some (l.foldl (fun b p => if p.2 < b.2 then p else b) b) := by
  obtain ⟨l1, l2, hsplit, hstrict, hmin⟩ := foldlMin_split l b
  rw [hsplit]
  apply find?_of_split
  · intro p hp
    rw [decide_eq_false_iff_not]
    intro hall
    have h1 := hall (l.foldl (fun b p => if p.2 < b.2 then p else b) b)
      (List.mem_append_right _ (List.mem_cons_self _ _))
    have h2 := hstrict p hp
    omega
  · rw [decide_eq_true_eq]
    intro q hq
    refine hmin q ?_
    rw [hsplit]
    exact hq

/-- The scan of lines 160-167 selects the first entry of minimal count,
in iteration order. -/
lemma minEntryD_first_min (d : Dict) (hd : d ≠ []) :
    d.find? (fun p => decide (∀ q ∈ d, p.2 ≤ q.2)) = some (minEntryD d) := by
  rcases d with _ | ⟨b, l⟩
  · exact absurd rfl hd
  · exact find?_min_foldl b l


/-! ### Claim C7 -/

/-- C7: on a mapping with at least three distinct keys, `get_path_list_2`
removes the first key of globally minimal remaining count (in iteration
order), recurses on the mapping without it with the target increased by
exactly that key's count, and returns `none` exactly when the recursive
call returns `none` (failure is propagated, with no retry and no partial
result). -/
theorem gpl2_recursive_step (d : Dict) (t : Int)
    (h3 : 3 ≤ d.length) (hnd : NodupNames d) :
    d.find? (fun p => decide (∀ q ∈ d, p.2 ≤ q.2)) = some (minEntryD d) ∧
    (gpl2Path d t = none ↔
      gpl2Path (removev d (minEntryD d).1.name) (t + getv d (minEntryD d).1.name) = none) := by
  constructor
  · exact minEntryD_first_min d (by intro h; subst h; simp at h3)
  · match d, h3 with
    | e1 :: e2 :: e3 :: rest, _ =>
      simp only [gpl2Path, gpl2]
      cases hsub : (gpl2 (removev (e1 :: e2 :: e3 :: rest) (minEntryD (e1 :: e2 :: e3 :: rest)).1.name)
          (t + getv (e1 :: e2 :: e3 :: rest) (minEntryD (e1 :: e2 :: e3 :: rest)).1.name)).1 with
      | none => simp [hsub]
      | some l => simp [hsub]

/-- Witness for C7 at the three-node mapping `{a ↦ 2, b ↦ 1, c ↦ 3}`. -/
theorem gpl2_recursive_step_witness :
    3 ≤ ([(⟨"a", 2⟩, 2), (⟨"b", 1⟩, 1), (⟨"c", 3⟩, 3)] : Dict).length ∧
    NodupNames [(⟨"a", 2⟩, 2), (⟨"b", 1⟩, 1), (⟨"c", 3⟩, 3)] ∧
    (([(⟨"a", 2⟩, 2), (⟨"b", 1⟩, 1), (⟨"c", 3⟩, 3)] : Dict).find?
        (fun p => decide (∀ q ∈ ([(⟨"a", 2⟩, 2), (⟨"b", 1⟩, 1), (⟨"c", 3⟩, 3)] : Dict), p.2 ≤ q.2)) =
      some (minEntryD [(⟨"a", 2⟩, 2), (⟨"b", 1⟩, 1), (⟨"c", 3⟩, 3)]) ∧
    (gpl2Path [(⟨"a", 2⟩, 2), (⟨"b", 1⟩, 1), (⟨"c", 3⟩, 3)] 0 = none ↔
      gpl2Path (removev [(⟨"a", 2⟩, 2), (⟨"b", 1⟩, 1), (⟨"c", 3⟩, 3)]
          (minEntryD [(⟨"a", 2⟩, 2), (⟨"b", 1⟩, 1), (⟨"c", 3⟩, 3)]).1.name)
        (0 + getv [(⟨"a", 2⟩, 2), (⟨"b", 1⟩, 1), (⟨"c", 3⟩, 3)]
          (minEntryD [(⟨"a", 2⟩, 2), (⟨"b", 1⟩, 1), (⟨"c", 3⟩, 3)]).1.name) = none)) :=
  ⟨by decide, by decide,
   gpl2_recursive_step [(⟨"a", 2⟩, 2), (⟨"b", 1⟩, 1), (⟨"c", 3⟩, 3)] 0 (by decide) (by decide)⟩

/-! ### Claim C5 -/

/-- C5: `get_path_list_2` on the empty mapping returns the empty sequence, for
every target value; on a mapping with exactly one node of count `c` it returns
the one-element sequence `[n]` when `c = 1` and `none` for every other `c`,
including `c = 0`. -/
theorem gpl2_base_cases (n : Node) (c t : Int) :
    gpl2Path [] t = some [] ∧
    gpl2Path [(n, c)] t = (if c = 1 then some [n] else none) := by
  constructor
  · simp [gpl2Path, gpl2]
  · by_cases h : c = 1 <;> simp [gpl2Path, gpl2, h]

/-! ### Claim C4 -/

/-- C4 counterexample: a two-node budget mapping with counts `p = 1 ≤ q = 2`
and `q ≤ p + 1`, on which `get_path_list_2` with target 0 nevertheless
returns `none`, because the pivot is selected by the nodes' stored `value`
attributes, which here disagree with the counts. -/
theorem gpl2_two_node_counterexample :
    gpl2Path [(⟨"x", 2⟩, 1), (⟨"y", 1⟩, 2)] 0 = none ∧
    (1 : Int) ≤ 2 ∧ (2 : Int) ≤ 1 + 1 ∧ (0 : Int) ≤ 1 ∧ (0 : Int) ≤ 2 := by
  refine ⟨?_, by norm_num, by norm_num, by norm_num, by norm_num⟩
  simp [gpl2Path, gpl2, pick2, getv, setv, reflect]

/-- C4 (amended): for a budget mapping with exactly two distinct nodes whose
stored `value` attributes equal their counts, with non-negative counts
`p = min v1 v2` and `q = max v1 v2`, `get_path_list_2` with target 0 returns
a sequence if and only if `q ≤ p + 1`. -/
theorem gpl2_two_node_feasibility (k1 k2 : Node) (v1 v2 : Int)
    (hne : ¬ k1.name = k2.name) (h1 : k1.value = v1) (h2 : k2.value = v2)
    (hp : 0 ≤ v1) (hq : 0 ≤ v2) :
    gpl2Path [(k1, v1), (k2, v2)] 0 ≠ none ↔ max v1 v2 ≤ min v1 v2 + 1 := by
  rw [gpl2_two_success k1 k2 v1 v2 0 hne h1 h2 hp hq]
  split_ifs <;> omega

/-- Witness for C4 at the mapping `{x ↦ 1, y ↦ 2}` with matching values. -/
theorem gpl2_two_node_feasibility_witness :
    (¬ (Node.name ⟨"x", 1⟩ = Node.name ⟨"y", 2⟩)) ∧
    (gpl2Path [((⟨"x", 1⟩ : Node), (1 : Int)), (⟨"y", 2⟩, 2)] 0 ≠ none ↔
      max (1 : Int) 2 ≤ min (1 : Int) 2 + 1) :=
  ⟨by decide,
   gpl2_two_node_feasibility ⟨"x", 1⟩ ⟨"y", 2⟩ 1 2 (by decide) rfl rfl
     (by norm_num) (by norm_num)⟩

/-! ### Claim C6 -/

/-- C6 counterexample: on a two-node mapping where the stored `value`
attributes disagree with the remaining counts, the pivot `min_n` chosen by
the code (by `value` attribute) has the strictly larger remaining count. -/
theorem pick2_counterexample :
    (pick2 ⟨"p", 5⟩ ⟨"q", 1⟩).1 = ⟨"q", 1⟩ ∧
    getv [((⟨"p", 5⟩ : Node), (1 : Int)), (⟨"q", 1⟩, 5)] (pick2 ⟨"p", 5⟩ ⟨"q", 1⟩).1.name = 5 ∧
    getv [((⟨"p", 5⟩ : Node), (1 : Int)), (⟨"q", 1⟩, 5)] (pick2 ⟨"p", 5⟩ ⟨"q", 1⟩).2.name = 1 ∧
    ¬ ((5 : Int) ≤ 1) := by
  refine ⟨by decide, by decide, by decide, by norm_num⟩

/-- C6 (amended): the pivot `min_n` is the node with the weakly smaller
stored `value` attribute (first on ties); whenever the two nodes' values
agree with their remaining counts, this is a node of weakly smaller
remaining count. -/
theorem pick2_min_count_of_matched (k1 k2 : Node) (v1 v2 : Int)
    (hne : ¬ k1.name = k2.name) (h1 : k1.value = v1) (h2 : k2.value = v2) :
    getv [(k1, v1), (k2, v2)] (pick2 k1 k2).1.name ≤
      getv [(k1, v1), (k2, v2)] (pick2 k1 k2).2.name := by
  unfold pick2
  rw [h1, h2]
  by_cases hc : v2 < v1
  · rw [if_pos hc]
    simp only [getv, if_neg hne, if_pos rfl, if_true]
    omega
  · rw [if_neg hc]
    simp only [getv, if_neg hne, if_pos rfl, if_true]
    omega

/-- Witness for C6 at the mapping `{u ↦ 3, w ↦ 7}` with matching values. -/
theorem pick2_min_count_of_matched_witness :
    (¬ (Node.name ⟨"u", 3⟩ = Node.name ⟨"w", 7⟩)) ∧
    getv [((⟨"u", 3⟩ : Node), (3 : Int)), (⟨"w", 7⟩, 7)] (pick2 ⟨"u", 3⟩ ⟨"w", 7⟩).1.name ≤
      getv [((⟨"u", 3⟩ : Node), (3 : Int)), (⟨"w", 7⟩, 7)] (pick2 ⟨"u", 3⟩ ⟨"w", 7⟩).2.name :=
  ⟨by decide, pick2_min_count_of_matched ⟨"u", 3⟩ ⟨"w", 7⟩ 3 7 (by decide) rfl rfl⟩

/-! ### Claim C8 -/

lemma getv_nonneg (d : Dict) (s : String) (hd : ∀ p ∈ d, 0 ≤ p.2) :
    0 ≤ getv d s := by
  induction d with
  | nil => simp [getv]
  | cons e rest ih =>
    obtain ⟨k, v⟩ := e
    by_cases hk : k.name = s
    · simp only [getv, if_pos hk]
      exact hd (k, v) (List.mem_cons_self _ _)
    · simp only [getv, if_neg hk]
      exact ih (fun p hp => hd p (List.mem_cons_of_mem _ hp))

lemma setv_nonneg (d : Dict) (s : String) (w : Int)
    (hd : ∀ p ∈ d, 0 ≤ p.2) (hw : 0 ≤ w) :
    ∀ p ∈ setv d s w, 0 ≤ p.2 := by
  induction d with
  | nil => simp [setv]
  | cons e rest ih =>
    obtain ⟨k, v⟩ := e
    by_cases hk : k.name = s
    · simp only [setv, if_pos hk]
      intro p hp
      rcases List.mem_cons.mp hp with hp | hp
      · subst hp; exact hw
      · exact hd p (List.mem_cons_of_mem _ hp)
    · simp only [setv, if_neg hk]
      intro p hp
      rcases List.mem_cons.mp hp with hp | hp
      · subst hp; exact hd (k, v) (List.mem_cons_self _ _)
      · exact ih (fun p hp => hd p (List.mem_cons_of_mem _ hp)) p hp

lemma decv_nonneg (d : Dict) (s : String)
    (hd : ∀ p ∈ d, 0 ≤ p.2) (hs : 1 ≤ getv d s) :
    ∀ p ∈ decv d s, 0 ≤ p.2 := by
  induction d with
  | nil => simp [decv]
  | cons e rest ih =>
    obtain ⟨k, v⟩ := e
    by_cases hk : k.name = s
    · simp only [getv, if_pos hk] at hs
      simp only [decv, if_pos hk]
      intro p hp
      rcases List.mem_cons.mp hp with hp | hp
      · subst hp; simp; omega
      · exact hd p (List.mem_cons_of_mem _ hp)
    · simp only [getv, if_neg hk] at hs
      simp only [decv, if_neg hk]
      intro p hp
      rcases List.mem_cons.mp hp with hp | hp
      · subst hp; exact hd (k, v) (List.mem_cons_self _ _)
      · exact ih (fun p hp => hd p (List.mem_cons_of_mem _ hp)) hs p hp

lemma getv_decv_ne (d : Dict) (s s' : String) (h : ¬ s' = s) :
    getv (decv d s') s = getv d s := by
  induction d with
  | nil => rfl
  | cons e rest ih =>
    obtain ⟨k, v⟩ := e
    by_cases hk : k.name = s'
    · simp only [decv, if_pos hk, getv]
      rw [if_neg (by rw [hk]; exact fun hc => h hc), if_neg (by rw [hk]; exact fun hc => h hc)]
    · simp only [decv, if_neg hk, getv]
      by_cases hs : k.name = s
      · rw [if_pos hs, if_pos hs]
      · rw [if_neg hs, if_neg hs]
        exact ih

lemma updateAll_nonneg (d o : Dict)
    (hd : ∀ p ∈ d, 0 ≤ p.2) (ho : ∀ p ∈ o, 0 ≤ p.2) :
    ∀ p ∈ updateAll d o, 0 ≤ p.2 := by
  induction o generalizing d with
  | nil => exact hd
  | cons e rest ih =>
    simp only [updateAll, List.foldl_cons] at ih ⊢
    exact ih (setv d e.1.name e.2)
      (setv_nonneg d e.1.name e.2 hd (ho e (List.mem_cons_self _ _)))
      (fun p hp => ho p (List.mem_cons_of_mem _ hp))

lemma reflect_nonneg (p q t : Int) (atMax : Bool) (acc : List Node) (mn mx : Node)
    (hp : 0 ≤ p) (hq : 0 ≤ q) :
    0 ≤ (reflect p q t atMax acc mn mx).2.1 ∧ 0 ≤ (reflect p q t atMax acc mn mx).2.2 := by
  revert hp hq
  induction p, q, t, atMax, acc, mn, mx using reflect.induct with
  | case1 p q t acc mn mx h1 h2 ih =>
    intro hp hq
    rw [reflect]
    simp only [h1, if_true, ite_true, if_pos h2]
    exact ih hp (by omega)
  | case2 p q t acc mn mx h1 h2 =>
    intro hp hq
    rw [reflect]
    simp only [h1, if_true, ite_true, if_neg h2]
    exact ⟨hp, hq⟩
  | case3 p q t atMax acc mn mx h1 h2 h3 ih =>
    intro hp hq
    simp only [Bool.not_eq_true] at h2
    subst h2
    rw [reflect]
    simp only [h1, if_true, ite_false, Bool.false_eq_true, if_pos h3]
    exact ih (by omega) hq
  | case4 p q t atMax acc mn mx h1 h2 h3 =>
    intro hp hq
    simp only [Bool.not_eq_true] at h2
    subst h2
    rw [reflect]
    simp only [h1, if_true, ite_false, Bool.false_eq_true, if_neg h3]
    exact ⟨hp, hq⟩
  | case5 p q t atMax acc mn mx h1 =>
    intro hp hq
    rw [reflect]
    simp only [if_neg h1]
    exact ⟨hp, hq⟩

lemma mergeInner_nonneg (d : Dict) (mk n : Node) (acc : List Node)
    (hne : ¬ mk.name = n.name) (hd : ∀ p ∈ d, 0 ≤ p.2) :
    ∀ p ∈ (mergeInner d mk n acc).1, 0 ≤ p.2 := by
  induction d, mk, n, acc using mergeInner.induct with
  | case1 d mk n acc h ih =>
    rw [mergeInner, if_pos h]
    apply ih hne
    apply decv_nonneg
    · exact decv_nonneg d n.name hd h.1
    · rw [getv_decv_ne d mk.name n.name (fun hc => hne hc.symm)]
      exact h.2
  | case2 d mk n acc h =>
    rw [mergeInner, if_neg h]
    exact hd

lemma mergeOuter_nonneg (d : Dict) (mk : Node) (ks acc : List Node)
    (hks : ∀ k ∈ ks, ¬ mk.name = k.name) (hd : ∀ p ∈ d, 0 ≤ p.2) :
    ∀ p ∈ (mergeOuter d mk ks acc).2, 0 ≤ p.2 := by
  induction ks generalizing d acc with
  | nil => exact hd
  | cons k rest ih =>
    rw [mergeOuter]
    by_cases h : getv d mk.name ≤ 0
    · rw [if_pos h]; exact hd
    · rw [if_neg h]
      simp only
      exact ih _ _ (fun k hk => hks k (List.mem_cons_of_mem _ hk))
        (mergeInner_nonneg d mk k acc (hks k (List.mem_cons_self _ _)) hd)

lemma mem_keysD_names (d : Dict) (k : Node) (h : k ∈ keysD d) :
    k.name ∈ namesD d := by
  simp only [keysD, List.mem_map] at h
  obtain ⟨p, hp, hpk⟩ := h
  simp only [namesD, List.mem_map]
  exact ⟨p, hp, by rw [hpk]⟩

lemma gpl2_nonneg_aux (d : Dict) (t : Int) (hd : ∀ p ∈ d, 0 ≤ p.2) :
    ∀ p ∈ (gpl2 d t).2, 0 ≤ p.2 := by
  induction d, t using gpl2.induct with
  | case1 t => rw [gpl2]; simp
  | case2 t n =>
    rw [gpl2]
    simp only
    exact hd
  | case3 t n v hv =>
    rw [gpl2]
    simpa [hv] using hd
  | case4 t k1 v1 k2 v2 =>
    rw [gpl2]
    simp only
    have h1 : 0 ≤ getv [(k1, v1), (k2, v2)] (pick2 k1 k2).1.name := getv_nonneg _ _ hd
    have h2 : 0 ≤ getv [(k1, v1), (k2, v2)] (pick2 k1 k2).2.name := getv_nonneg _ _ hd
    have hr := reflect_nonneg (getv [(k1, v1), (k2, v2)] (pick2 k1 k2).1.name)
      (getv [(k1, v1), (k2, v2)] (pick2 k1 k2).2.name) t true [] (pick2 k1 k2).1
      (pick2 k1 k2).2 h1 h2
    exact setv_nonneg _ _ _ (setv_nonneg _ _ _ hd hr.1) hr.2
  | case5 t e1 e2 e3 rest d0 mk c nd r hnone ih =>
    rw [gpl2]
    simp only
    rw [show (gpl2 nd (t + c)).1 = none from hnone]
    exact hd
  | case6 t e1 e2 e3 rest d0 mk c nd r l hsome ih =>
    rw [gpl2]
    simp only
    rw [show (gpl2 nd (t + c)).1 = some l from hsome]
    simp only
    have hnd : ∀ p ∈ nd, 0 ≤ p.2 := by
      intro p hp
      exact hd p (List.mem_of_mem_filter hp)
    have hr2 : ∀ p ∈ (gpl2 nd (t + c)).2, 0 ≤ p.2 := ih hnd
    apply mergeOuter_nonneg
    · intro k hk heq
      have h1 := mem_keysD_names _ _ hk
      rw [namesD_gpl2] at h1
      rw [heq] at h1
      exact not_mem_namesD_removev _ _ h1
    · exact updateAll_nonneg _ _ hd hr2

/-- C8: on a mapping with non-negative counts and a non-negative target,
every count in the final state of the working mapping is non-negative
(every decrement in the program is guarded), whether the call returns a
sequence or `none`; the proof proceeds through every recursively derived
sub-mapping. -/
theorem gpl2_nonneg_invariant (d : Dict) (t : Int)
    (hd : ∀ p ∈ d, 0 ≤ p.2) (_ht : 0 ≤ t) :
    ∀ p ∈ (gpl2 d t).2, 0 ≤ p.2 :=
  gpl2_nonneg_aux d t hd

/-- Witness for C8 at the mapping `{a ↦ 1, b ↦ 2, c ↦ 0}`. -/
theorem gpl2_nonneg_invariant_witness :
    (∀ p ∈ ([(⟨"a", 1⟩, 1), (⟨"b", 2⟩, 2), (⟨"c", 0⟩, 0)] : Dict), 0 ≤ p.2) ∧
    (0 : Int) ≤ 0 ∧
    (∀ p ∈ (gpl2 [(⟨"a", 1⟩, 1), (⟨"b", 2⟩, 2), (⟨"c", 0⟩, 0)] 0).2, 0 ≤ p.2) :=
  ⟨by decide, le_refl 0,
   gpl2_nonneg_invariant [(⟨"a", 1⟩, 1), (⟨"b", 2⟩, 2), (⟨"c", 0⟩, 0)] 0 (by decide) (le_refl 0)⟩

/-! ### Claim C1 -/

/-- C1: the code violates multiset conservation.  On the budget mapping with
five distinct nodes, each of count 1 (values matching counts),
`get_path_list_2` with target 0 returns a four-element sequence in which
node `a` occurs zero times, although its count in the mapping is 1. -/
theorem gpl2_conservation_failure :
    gpl2Path [(⟨"a", 1⟩, 1), (⟨"b", 1⟩, 1), (⟨"c", 1⟩, 1), (⟨"d", 1⟩, 1), (⟨"e", 1⟩, 1)] 0 =
      some [⟨"c", 1⟩, ⟨"d", 1⟩, ⟨"b", 1⟩, ⟨"e", 1⟩] ∧
    List.count (⟨"a", 1⟩ : Node) [⟨"c", 1⟩, ⟨"d", 1⟩, ⟨"b", 1⟩, ⟨"e", 1⟩] = 0 ∧
    getv [(⟨"a", 1⟩, 1), (⟨"b", 1⟩, 1), (⟨"c", 1⟩, 1), (⟨"d", 1⟩, 1), (⟨"e", 1⟩, 1)] "a" = 1 ∧
    NodupNames [(⟨"a", 1⟩, 1), (⟨"b", 1⟩, 1), (⟨"c", 1⟩, 1), (⟨"d", 1⟩, 1), (⟨"e", 1⟩, 1)] ∧
    (∀ p ∈ ([(⟨"a", 1⟩, 1), (⟨"b", 1⟩, 1), (⟨"c", 1⟩, 1), (⟨"d", 1⟩, 1),
      (⟨"e", 1⟩, 1)] : Dict), 0 ≤ p.2) := by
  refine ⟨?_, by decide, by decide, by decide, by decide⟩
  simp [gpl2Path, gpl2, pick2, getv, setv, reflect, minEntryD, removev,
    updateAll, keysD, mergeOuter, mergeInner, decv]

/-! ### Claim C9 -/

/-- Printing one line per index `i` of `path[:-1]` is the same as printing
one line per adjacent pair of the full marker-bracketed list. -/
lemma rangeMap_adjacent (f : String → String → String) :
    ∀ (l : List String),
      (List.range (l.length - 1)).map (fun i => f (l.getD i "") (l.getD (i + 1) "")) =
        (l.zip l.tail).map (fun pr => f pr.1 pr.2)
  | [] => by simp
  | [a] => by simp
  | a :: b :: rest => by
    have ih := rangeMap_adjacent f (b :: rest)
    simp only [List.length_cons, Nat.add_sub_cancel, List.getD_cons_succ] at ih
    simp only [List.length_cons, Nat.add_sub_cancel]
    rw [List.range_succ_eq_map, List.map_cons, List.map_map]
    simp only [Function.comp_def, List.getD_cons_succ, List.getD_cons_zero]
    rw [ih]
    simp [List.zip_cons_cons]

/-- C9: when the solver returns a sequence `s`, `output_path` emits exactly
`s.length + 1` lines, one line `Move from '<A>' to '<B>'.` per adjacent pair
of `["start"] ++ s ++ ["end"]` in order; when the solver returns `none`, it
emits the single line `Impossible puzzle.`. -/
theorem output_path_spec (nodes : List Node) :
    (∀ s, gpl2Path (snapshotD nodes) 0 = some s →
      outputPath nodes =
        ((("start" :: s.map (fun n => n.name) ++ ["end"]).zip
          (("start" :: s.map (fun n => n.name) ++ ["end"]).tail)).map
            (fun pr => moveLine pr.1 pr.2)) ∧
      (outputPath nodes).length = s.length + 1) ∧
    (gpl2Path (snapshotD nodes) 0 = none → outputPath nodes = ["Impossible puzzle."]) := by
  constructor
  · intro s hs
    unfold outputPath
    rw [hs]
    constructor
    · exact rangeMap_adjacent moveLine ("start" :: s.map (fun n => n.name) ++ ["end"])
    · simp
  · intro hs
    unfold outputPath
    rw [hs]

/-- Witness for C9 at the single-node list `[x (value 1)]`. -/
theorem output_path_spec_witness :
    gpl2Path (snapshotD [⟨"x", 1⟩]) 0 = some [⟨"x", 1⟩] ∧
    outputPath [⟨"x", 1⟩] =
      ((("start" :: [(⟨"x", 1⟩ : Node)].map (fun n => n.name) ++ ["end"]).zip
        (("start" :: [(⟨"x", 1⟩ : Node)].map (fun n => n.name) ++ ["end"]).tail)).map
          (fun pr => moveLine pr.1 pr.2)) ∧
    (outputPath [⟨"x", 1⟩]).length = 1 + 1 := by
  have hs : gpl2Path (snapshotD [⟨"x", 1⟩]) 0 = some [⟨"x", 1⟩] := by
    simp [snapshotD, gpl2Path, gpl2, setv]
  have h := (output_path_spec [⟨"x", 1⟩]).1 [⟨"x", 1⟩] hs
  exact ⟨hs, h.1, h.2⟩

/-! ### Claim C2 -/

/-- Two nodes with distinct names (the program's notion of distinct nodes). -/
def nameNe (a b : Node) : Prop := ¬ a.name = b.name

lemma pick2_cases (k1 k2 : Node) :
    ((pick2 k1 k2).1 = k1 ∧ (pick2 k1 k2).2 = k2) ∨
    ((pick2 k1 k2).1 = k2 ∧ (pick2 k1 k2).2 = k1) := by
  unfold pick2
  by_cases h : k2.value < k1.value
  · right; rw [if_pos h]; exact ⟨rfl, rfl⟩
  · left; rw [if_neg h]; exact ⟨rfl, rfl⟩

lemma reflect_some_chain (p q t : Int) (atMax : Bool) (acc : List Node) (mn mx : Node) :
    ∀ (l : List Node), ¬ mn.name = mx.name →
      List.Chain' nameNe acc →
      (∀ m ∈ acc.getLast?, ¬ m.name = (if atMax then mx.name else mn.name)) →
      (reflect p q t atMax acc mn mx).1 = some l →
      List.Chain' nameNe l ∧ ∀ x ∈ l, x ∈ acc ∨ x = mn ∨ x = mx := by
  induction p, q, t, atMax, acc, mn, mx using reflect.induct with
  | case1 p q t acc mn mx h1 h2 ih =>
    intro l hne hacc hlast h
    rw [reflect] at h
    simp only [h1, if_true, ite_true, if_pos h2] at h
    have hacc2 : List.Chain' nameNe (acc ++ [mx]) := by
      rw [List.chain'_append]
      refine ⟨hacc, List.chain'_singleton _, ?_⟩
      intro x hx y hy
      simp only [List.head?_cons, Option.mem_def, Option.some.injEq] at hy
      subst hy
      have := hlast x hx
      simpa using this
    have hlast2 : ∀ m ∈ (acc ++ [mx]).getLast?, ¬ m.name = (if false then mx.name else mn.name) := by
      intro m hm
      rw [List.getLast?_concat] at hm
      simp only [Option.mem_def, Option.some.injEq] at hm
      subst hm
      simp only [Bool.false_eq_true, if_false, ite_false]
      exact fun hc => hne hc.symm
    obtain ⟨hc, hmem⟩ := ih l hne hacc2 hlast2 h
    refine ⟨hc, ?_⟩
    intro x hx
    rcases hmem x hx with hx2 | hx2 | hx2
    · rcases List.mem_append.mp hx2 with hx3 | hx3
      · exact Or.inl hx3
      · right; right
        simpa using hx3
    · exact Or.inr (Or.inl hx2)
    · exact Or.inr (Or.inr hx2)
  | case2 p q t acc mn mx h1 h2 =>
    intro l hne hacc hlast h
    rw [reflect] at h
    simp only [h1, if_true, ite_true, if_neg h2] at h
    exact absurd h (by simp)
  | case3 p q t atMax acc mn mx h1 h2 h3 ih =>
    intro l hne hacc hlast h
    simp only [Bool.not_eq_true] at h2
    subst h2
    rw [reflect] at h
    simp only [h1, if_true, ite_false, Bool.false_eq_true, if_pos h3] at h
    have hacc2 : List.Chain' nameNe (acc ++ [mn]) := by
      rw [List.chain'_append]
      refine ⟨hacc, List.chain'_singleton _, ?_⟩
      intro x hx y hy
      simp only [List.head?_cons, Option.mem_def, Option.some.injEq] at hy
      subst hy
      have := hlast x hx
      simpa using this
    have hlast2 : ∀ m ∈ (acc ++ [mn]).getLast?, ¬ m.name = (if true then mx.name else mn.name) := by
      intro m hm
      rw [List.getLast?_concat] at hm
      simp only [Option.mem_def, Option.some.injEq] at hm
      subst hm
      simp only [if_true, ite_true]
      exact hne
    obtain ⟨hc, hmem⟩ := ih l hne hacc2 hlast2 h
    refine ⟨hc, ?_⟩
    intro x hx
    rcases hmem x hx with hx2 | hx2 | hx2
    · rcases List.mem_append.mp hx2 with hx3 | hx3
      · exact Or.inl hx3
      · right; left
        simpa using hx3
    · exact Or.inr (Or.inl hx2)
    · exact Or.inr (Or.inr hx2)
  | case4 p q t atMax acc mn mx h1 h2 h3 =>
    intro l hne hacc hlast h
    simp only [Bool.not_eq_true] at h2
    subst h2
    rw [reflect] at h
    simp only [h1, if_true, ite_false, Bool.false_eq_true, if_neg h3] at h
    exact absurd h (by simp)
  | case5 p q t atMax acc mn mx h1 =>
    intro l hne hacc hlast h
    rw [reflect] at h
    simp only [if_neg h1, Option.some.injEq] at h
    subst h
    exact ⟨hacc, fun x hx => Or.inl hx⟩

lemma mergeInner_chain (d : Dict) (mk n : Node) (acc : List Node) :
    ¬ mk.name = n.name →
    List.Chain' nameNe acc →
    (∀ m ∈ acc.getLast?, ¬ m.name = mk.name) →
    List.Chain' nameNe (mergeInner d mk n acc).2 ∧
    (∀ x ∈ (mergeInner d mk n acc).2, x ∈ acc ∨ x = mk ∨ x = n) ∧
    (∀ m ∈ (mergeInner d mk n acc).2.getLast?, ¬ m.name = mk.name) := by
  induction d, mk, n, acc using mergeInner.induct with
  | case1 d mk n acc h ih =>
    intro hne hacc hlast
    rw [mergeInner, if_pos h]
    have hacc2 : List.Chain' nameNe (acc ++ [mk, n]) := by
      rw [List.chain'_append]
      refine ⟨hacc, ?_, ?_⟩
      · rw [List.chain'_cons]
        exact ⟨hne, List.chain'_singleton _⟩
      · intro x hx y hy
        simp only [List.head?_cons, Option.mem_def, Option.some.injEq] at hy
        subst hy
        exact hlast x hx
    have hlast2 : ∀ m ∈ (acc ++ [mk, n]).getLast?, ¬ m.name = mk.name := by
      intro m hm
      rw [show acc ++ [mk, n] = (acc ++ [mk]) ++ [n] by simp] at hm
      rw [List.getLast?_concat] at hm
      simp only [Option.mem_def, Option.some.injEq] at hm
      subst hm
      exact fun hc => hne hc.symm
    obtain ⟨hc, hmem, hl⟩ := ih hne hacc2 hlast2
    refine ⟨hc, ?_, hl⟩
    intro x hx
    rcases hmem x hx with hx2 | hx2 | hx2
    · rcases List.mem_append.mp hx2 with hx3 | hx3
      · exact Or.inl hx3
      · rcases List.mem_cons.mp hx3 with hx4 | hx4
        · exact Or.inr (Or.inl hx4)
        · right; right; simpa using hx4
    · exact Or.inr (Or.inl hx2)
    · exact Or.inr (Or.inr hx2)
  | case2 d mk n acc h =>
    intro hne hacc hlast
    rw [mergeInner, if_neg h]
    exact ⟨hacc, fun x hx => Or.inl hx, hlast⟩

lemma mergeOuter_chain (d : Dict) (mk : Node) (ks acc : List Node)
    (hks : ∀ k ∈ ks, ¬ mk.name = k.name)
    (hacc : List.Chain' nameNe acc)
    (hlast : ∀ m ∈ acc.getLast?, ¬ m.name = mk.name) :
    List.Chain' nameNe (mergeOuter d mk ks acc).1 ∧
    (∀ x ∈ (mergeOuter d mk ks acc).1, x ∈ acc ∨ x = mk ∨ x ∈ ks) := by
  induction ks generalizing d acc with
  | nil =>
    exact ⟨hacc, fun x hx => Or.inl hx⟩
  | cons k rest ih =>
    rw [mergeOuter]
    by_cases h : getv d mk.name ≤ 0
    · rw [if_pos h]
      exact ⟨hacc, fun x hx => Or.inl hx⟩
    · rw [if_neg h]
      simp only
      obtain ⟨hc, hmem, hl⟩ := mergeInner_chain d mk k acc
        (hks k (List.mem_cons_self _ _)) hacc hlast
      obtain ⟨hc2, hmem2⟩ := ih _ _ (fun k hk => hks k (List.mem_cons_of_mem _ hk)) hc hl
      refine ⟨hc2, ?_⟩
      intro x hx
      rcases hmem2 x hx with hx2 | hx2 | hx2
      · rcases hmem x hx2 with hx3 | hx3 | hx3
        · exact Or.inl hx3
        · exact Or.inr (Or.inl hx3)
        · exact Or.inr (Or.inr (by rw [hx3]; exact List.mem_cons_self _ _))
      · exact Or.inr (Or.inl hx2)
      · exact Or.inr (Or.inr (List.mem_cons_of_mem _ hx2))

lemma nodupNames_two (k1 k2 : Node) (v1 v2 : Int)
    (hnd : NodupNames [(k1, v1), (k2, v2)]) : ¬ k1.name = k2.name := by
  simp only [NodupNames, namesD, List.map_cons, List.map_nil, List.nodup_cons] at hnd
  intro hc
  exact hnd.1 (by simp [hc])

/-- Every sequence returned by `get_path_list_2` has pairwise-distinct
adjacent names, and all its entries are keys of the input mapping. -/
lemma gpl2_some_chain (d : Dict) (t : Int) :
    ∀ (l : List Node), NodupNames d → (gpl2 d t).1 = some l →
      List.Chain' nameNe l ∧ ∀ x ∈ l, x.name ∈ namesD d := by
  induction d, t using gpl2.induct with
  | case1 t =>
    intro l hnd h
    rw [gpl2] at h
    simp only [Option.some.injEq] at h
    subst h
    exact ⟨List.chain'_nil, by simp⟩
  | case2 t n =>
    intro l hnd h
    rw [gpl2] at h
    simp only [if_true, ite_true, Option.some.injEq] at h
    subst h
    refine ⟨List.chain'_singleton _, ?_⟩
    intro x hx
    rcases List.mem_cons.mp hx with hx | hx
    · subst hx; simp [namesD]
    · simp at hx
  | case3 t n v hv =>
    intro l hnd h
    rw [gpl2] at h
    simp only [if_neg hv] at h
    exact absurd h (by simp)
  | case4 t k1 v1 k2 v2 =>
    intro l hnd h
    rw [gpl2] at h
    simp only at h
    have hne12 := nodupNames_two k1 k2 v1 v2 hnd
    have hne : ¬ (pick2 k1 k2).1.name = (pick2 k1 k2).2.name := by
      rcases pick2_cases k1 k2 with ⟨ha, hb⟩ | ⟨ha, hb⟩ <;> rw [ha, hb]
      · exact hne12
      · exact fun hc => hne12 hc.symm
    obtain ⟨hc, hmem⟩ := reflect_some_chain _ _ t true [] (pick2 k1 k2).1 (pick2 k1 k2).2
      l hne List.chain'_nil (by simp) h
    refine ⟨hc, ?_⟩
    intro x hx
    rcases hmem x hx with hx2 | hx2 | hx2
    · simp at hx2
    · rcases pick2_cases k1 k2 with ⟨ha, _⟩ | ⟨ha, _⟩ <;> rw [ha] at hx2 <;> subst hx2 <;>
        simp [namesD]
    · rcases pick2_cases k1 k2 with ⟨_, hb⟩ | ⟨_, hb⟩ <;> rw [hb] at hx2 <;> subst hx2 <;>
        simp [namesD]
  | case5 t e1 e2 e3 rest d0 mk c nd r hnone ih =>
    intro l hnd h
    rw [gpl2] at h
    simp only at h
    rw [show (gpl2 nd (t + c)).1 = none from hnone] at h
    exact absurd h (by simp)
  | case6 t e1 e2 e3 rest d0 mk c nd r l0 hsome ih =>
    intro l hnd h
    rw [gpl2] at h
    simp only at h
    rw [show (gpl2 nd (t + c)).1 = some l0 from hsome] at h
    simp only [Option.some.injEq] at h
    subst h
    have hndnd : NodupNames nd := nodupNames_removev _ _ hnd
    obtain ⟨hc0, hmem0⟩ := ih l0 hndnd hsome
    have hmk : mk.name ∉ namesD nd := not_mem_namesD_removev _ _
    have hks : ∀ k ∈ keysD (gpl2 nd (t + c)).2, ¬ mk.name = k.name := by
      intro k hk heq
      have h1 := mem_keysD_names _ _ hk
      rw [namesD_gpl2] at h1
      rw [← heq] at h1
      exact hmk h1
    have hlast : ∀ m ∈ l0.getLast?, ¬ m.name = mk.name := by
      intro m hm heq
      have h1 := hmem0 m (List.mem_of_mem_getLast? hm)
      rw [heq] at h1
      exact hmk h1
    obtain ⟨hc2, hmem2⟩ := mergeOuter_chain (updateAll d0 (gpl2 nd (t + c)).2) mk
      (keysD (gpl2 nd (t + c)).2) l0 hks hc0 hlast
    refine ⟨hc2, ?_⟩
    have hsub : ∀ s ∈ namesD nd, s ∈ namesD d0 := fun s hs =>
      (removev_names_sublist d0 mk.name).subset hs
    intro x hx
    rcases hmem2 x hx with hx2 | hx2 | hx2
    · exact hsub _ (hmem0 x hx2)
    · subst hx2
      have := minEntryD_mem d0 (by simp [d0])
      simp only [namesD, List.mem_map]
      exact ⟨minEntryD d0, this, rfl⟩
    · have h1 := mem_keysD_names _ _ hx2
      rw [namesD_gpl2] at h1
      exact hsub _ h1

/-- C2: on every budget mapping of distinct nodes with non-negative counts
on which `get_path_list_2` with target 0 returns a sequence, no two
consecutive entries of the sequence are equal nodes. -/
theorem gpl2_no_adjacent_repeat (d : Dict) (l : List Node)
    (hnd : NodupNames d) (_hnn : ∀ p ∈ d, 0 ≤ p.2)
    (h : gpl2Path d 0 = some l) :
    List.Chain' (fun a b => a ≠ b) l := by
  have hc := (gpl2_some_chain d 0 l hnd h).1
  exact hc.imp (fun _ _ hne heq => hne (congrArg Node.name heq))

/-- Witness for C2 at the default puzzle `{alpha ↦ 1, bravo ↦ 2, charlie ↦ 3}`. -/
theorem gpl2_no_adjacent_repeat_witness :
    NodupNames [(⟨"alpha", 1⟩, 1), (⟨"bravo", 2⟩, 2), (⟨"charlie", 3⟩, 3)] ∧
    (∀ p ∈ ([(⟨"alpha", 1⟩, 1), (⟨"bravo", 2⟩, 2), (⟨"charlie", 3⟩, 3)] : Dict), 0 ≤ p.2) ∧
    List.Chain' (fun a b => a ≠ b)
      [(⟨"charlie", 3⟩ : Node), ⟨"bravo", 2⟩, ⟨"charlie", 3⟩, ⟨"bravo", 2⟩, ⟨"alpha", 1⟩,
        ⟨"charlie", 3⟩] :=
  ⟨by decide, by decide,
   gpl2_no_adjacent_repeat [(⟨"alpha", 1⟩, 1), (⟨"bravo", 2⟩, 2), (⟨"charlie", 3⟩, 3)]
     [⟨"charlie", 3⟩, ⟨"bravo", 2⟩, ⟨"charlie", 3⟩, ⟨"bravo", 2⟩, ⟨"alpha", 1⟩, ⟨"charlie", 3⟩]
     (by decide) (by decide)
     (by simp [gpl2Path, gpl2, pick2, getv, setv, reflect, minEntryD, removev,
       updateAll, keysD, mergeOuter, mergeInner, decv])⟩

/-! ### Arithmetic lemmas on dictionary counts -/

lemma sumv_append (l1 l2 : Dict) : sumv (l1 ++ l2) = sumv l1 + sumv l2 := by
  simp [sumv]

lemma sumv_cons (e : Node × Int) (l : Dict) : sumv (e :: l) = e.2 + sumv l := by
  simp [sumv]

lemma maxvD_cons (e : Node × Int) (l : Dict) : maxvD (e :: l) = max e.2 (maxvD l) := by
  simp [maxvD, valsD]

lemma maxvD_nonneg (d : Dict) : 0 ≤ maxvD d := by
  induction d with
  | nil => simp [maxvD, valsD]
  | cons e l ih =>
    rw [maxvD_cons]
    omega

lemma maxvD_append (l1 l2 : Dict) : maxvD (l1 ++ l2) = max (maxvD l1) (maxvD l2) := by
  induction l1 with
  | nil =>
    have := maxvD_nonneg l2
    simp only [List.nil_append]
    have h0 : maxvD ([] : Dict) = 0 := by simp [maxvD, valsD]
    omega
  | cons e l ih =>
    rw [List.cons_append, maxvD_cons, maxvD_cons, ih]
    omega

lemma le_maxvD (d : Dict) (p : Node × Int) (h : p ∈ d) : p.2 ≤ maxvD d := by
  induction d with
  | nil => simp at h
  | cons e l ih =>
    rw [maxvD_cons]
    rcases List.mem_cons.mp h with h | h
    · subst h; omega
    · have := ih h; omega

lemma maxvD_le (d : Dict) (w : Int) (hw : 0 ≤ w) (h : ∀ p ∈ d, p.2 ≤ w) :
    maxvD d ≤ w := by
  induction d with
  | nil => simpa [maxvD, valsD] using hw
  | cons e l ih =>
    rw [maxvD_cons]
    have h1 := h e (List.mem_cons_self _ _)
    have h2 := ih (fun p hp => h p (List.mem_cons_of_mem _ hp))
    omega

lemma maxvD_exists (d : Dict) (h : maxvD d ≠ 0) : ∃ p ∈ d, p.2 = maxvD d := by
  induction d with
  | nil => simp [maxvD, valsD] at h
  | cons e l ih =>
    rw [maxvD_cons] at h ⊢
    by_cases he : maxvD l ≤ e.2
    · exact ⟨e, List.mem_cons_self _ _, by omega⟩
    · have hm : max e.2 (maxvD l) = maxvD l := by omega
      rw [hm] at h ⊢
      obtain ⟨p, hp, hpe⟩ := ih h
      exact ⟨p, List.mem_cons_of_mem _ hp, hpe⟩

lemma sumv_nonneg (d : Dict) (h : ∀ p ∈ d, 0 ≤ p.2) : 0 ≤ sumv d := by
  induction d with
  | nil => simp [sumv]
  | cons e l ih =>
    rw [sumv_cons]
    have h1 := h e (List.mem_cons_self _ _)
    have h2 := ih (fun p hp => h p (List.mem_cons_of_mem _ hp))
    omega

lemma le_sumv_of_mem (d : Dict) (p : Node × Int) (hnn : ∀ q ∈ d, 0 ≤ q.2)
    (h : p ∈ d) : p.2 ≤ sumv d := by
  induction d with
  | nil => simp at h
  | cons e l ih =>
    rw [sumv_cons]
    have h1 := hnn e (List.mem_cons_self _ _)
    have h2 := sumv_nonneg l (fun q hq => hnn q (List.mem_cons_of_mem _ hq))
    rcases List.mem_cons.mp h with h | h
    · subst h; omega
    · have := ih (fun q hq => hnn q (List.mem_cons_of_mem _ hq)) h
      omega

lemma exists_pos_of_sumv_pos (d : Dict) (hnn : ∀ q ∈ d, 0 ≤ q.2)
    (h : 1 ≤ sumv d) : ∃ p ∈ d, 1 ≤ p.2 := by
  induction d with
  | nil => simp [sumv] at h
  | cons e l ih =>
    by_cases he : 1 ≤ e.2
    · exact ⟨e, List.mem_cons_self _ _, he⟩
    · rw [sumv_cons] at h
      have h1 := hnn e (List.mem_cons_self _ _)
      obtain ⟨p, hp, hpp⟩ := ih (fun q hq => hnn q (List.mem_cons_of_mem _ hq)) (by omega)
      exact ⟨p, List.mem_cons_of_mem _ hp, hpp⟩

lemma getv_pos_mem (d : Dict) (s : String) (h : getv d s ≠ 0) :
    ∃ p ∈ d, p.1.name = s ∧ p.2 = getv d s := by
  induction d with
  | nil => simp [getv] at h
  | cons e l ih =>
    obtain ⟨k, v⟩ := e
    by_cases hk : k.name = s
    · simp only [getv, if_pos hk] at h ⊢
      exact ⟨(k, v), List.mem_cons_self _ _, hk, rfl⟩
    · simp only [getv, if_neg hk] at h ⊢
      obtain ⟨p, hp, hps, hpv⟩ := ih h
      exact ⟨p, List.mem_cons_of_mem _ hp, hps, hpv⟩

/-! ### Splitting a dictionary at a key -/

lemma split_of_mem_nodup (d : Dict) (k : Node) (v : Int)
    (h : (k, v) ∈ d) (hnd : NodupNames d) :
    ∃ l1 l2, d = l1 ++ (k, v) :: l2 ∧ k.name ∉ namesD l1 ∧ k.name ∉ namesD l2 := by
  induction d with
  | nil => simp at h
  | cons e l ih =>
    simp only [NodupNames, namesD, List.map_cons, List.nodup_cons] at hnd
    rcases List.mem_cons.mp h with h | h
    · refine ⟨[], l, by rw [h, List.nil_append], by simp [namesD], ?_⟩
      rw [← h] at hnd
      exact fun hc => hnd.1 hc
    · obtain ⟨l1, l2, hsplit, h1, h2⟩ := ih h hnd.2
      refine ⟨e :: l1, l2, by rw [hsplit, List.cons_append], ?_, h2⟩
      simp only [namesD, List.map_cons, List.mem_cons]
      rintro (hc | hc)
      · apply hnd.1
        rw [hsplit]
        simp only [namesD, List.map_append, List.map_cons, List.mem_append, List.mem_cons]
        right; left
        exact hc.symm
      · exact h1 hc

lemma getv_of_split (l1 l2 : Dict) (k : Node) (v : Int)
    (h1 : k.name ∉ namesD l1) :
    getv (l1 ++ (k, v) :: l2) k.name = v := by
  induction l1 with
  | nil => simp [getv]
  | cons e l ih =>
    simp only [namesD, List.map_cons, List.mem_cons] at h1
    rw [List.cons_append]
    obtain ⟨ke, ve⟩ := e
    simp only [getv]
    rw [if_neg (fun hc => h1 (Or.inl hc.symm))]
    exact ih (fun hc => h1 (Or.inr hc))

lemma decv_of_split (l1 l2 : Dict) (k : Node) (v : Int)
    (h1 : k.name ∉ namesD l1) :
    decv (l1 ++ (k, v) :: l2) k.name = l1 ++ (k, v - 1) :: l2 := by
  induction l1 with
  | nil => simp [decv]
  | cons e l ih =>
    simp only [namesD, List.map_cons, List.mem_cons] at h1
    rw [List.cons_append]
    obtain ⟨ke, ve⟩ := e
    simp only [decv]
    rw [if_neg (fun hc => h1 (Or.inl hc.symm))]
    rw [List.cons_append, ih (fun hc => h1 (Or.inr hc))]

lemma removev_of_split (l1 l2 : Dict) (k : Node) (v : Int)
    (h1 : k.name ∉ namesD l1) (h2 : k.name ∉ namesD l2) :
    removev (l1 ++ (k, v) :: l2) k.name = l1 ++ l2 := by
  induction l1 with
  | nil =>
    simp only [List.nil_append, removev]
    rw [List.filter_cons_of_neg (by simp)]
    rw [List.filter_eq_self.mpr]
    intro p hp
    simp only [decide_not, Bool.not_eq_true', decide_eq_false_iff_not]
    intro hc
    apply h2
    simp only [namesD, List.mem_map]
    exact ⟨p, hp, hc⟩
  | cons e l ih =>
    simp only [namesD, List.map_cons, List.mem_cons] at h1
    have hne : ¬ e.1.name = k.name := fun hc => h1 (Or.inl hc.symm)
    rw [List.cons_append]
    simp only [removev] at ih ⊢
    rw [List.filter_cons_of_pos (by simpa using hne)]
    rw [ih (fun hc => h1 (Or.inr hc))]
    rw [List.cons_append]

lemma getv_split_ne (l1 l2 : Dict) (k : Node) (v : Int) (s : String)
    (hs : ¬ s = k.name) :
    getv (l1 ++ (k, v) :: l2) s = getv (l1 ++ l2) s := by
  induction l1 with
  | nil =>
    simp only [List.nil_append, getv]
    rw [if_neg (fun hc => hs hc.symm)]
  | cons e l ih =>
    rw [List.cons_append, List.cons_append]
    obtain ⟨ke, ve⟩ := e
    simp only [getv]
    by_cases hk : ke.name = s
    · rw [if_pos hk, if_pos hk]
    · rw [if_neg hk, if_neg hk]
      exact ih

lemma nodup_split_names (l1 l2 : Dict) (k : Node) (v : Int)
    (hnd : NodupNames (l1 ++ (k, v) :: l2)) :
    k.name ∉ namesD l1 ∧ k.name ∉ namesD l2 ∧ NodupNames (l1 ++ l2) := by
  have h : namesD (l1 ++ (k, v) :: l2) = namesD l1 ++ k.name :: namesD l2 := by
    simp [namesD]
  rw [NodupNames, h, List.nodup_middle, List.nodup_cons, List.mem_append] at hnd
  have h2 : namesD (l1 ++ l2) = namesD l1 ++ namesD l2 := by simp [namesD]
  exact ⟨fun hc => hnd.1 (Or.inl hc), fun hc => hnd.1 (Or.inr hc),
    by rw [NodupNames, h2]; exact hnd.2⟩

lemma matchedD_removev (d : Dict) (s : String) (hm : matchedD d) :
    matchedD (removev d s) :=
  fun p hp => hm p (List.mem_of_mem_filter hp)

lemma nonneg_removev (d : Dict) (s : String) (hp : ∀ p ∈ d, 0 ≤ p.2) :
    ∀ p ∈ removev d s, 0 ≤ p.2 :=
  fun p hpp => hp p (List.mem_of_mem_filter hpp)

/-- Removing the minimum-count entry from a mapping of three or more
distinct non-negative entries leaves the maximum, the uniqueness of the
maximum, and the total (up to the removed count) unchanged. -/
lemma removev_min_transfer (d : Dict) (hlen : 3 ≤ d.length) (hnd : NodupNames d)
    (hpos : ∀ p ∈ d, 0 ≤ p.2) :
    maxvD (removev d (minEntryD d).1.name) = maxvD d ∧
    ((numMaxD (removev d (minEntryD d).1.name) = 1) ↔ (numMaxD d = 1)) ∧
    sumv (removev d (minEntryD d).1.name) + getv d (minEntryD d).1.name = sumv d ∧
    2 ≤ (removev d (minEntryD d).1.name).length := by
  rcases d with _ | ⟨b, l⟩
  · simp at hlen
  obtain ⟨l1, l2, hsplit, hstrict, hmin⟩ := foldlMin_split l b
  have hme : l.foldl (fun b p => if p.2 < b.2 then p else b) b = minEntryD (b :: l) := rfl
  rw [hme] at hsplit hstrict hmin
  set me := minEntryD (b :: l) with hmedef
  have hnd2 : NodupNames (l1 ++ me :: l2) := hsplit ▸ hnd
  obtain ⟨hn1, hn2, hn12⟩ := nodup_split_names l1 l2 me.1 me.2 hnd2
  have hgetv : getv (b :: l) me.1.name = me.2 := by
    rw [hsplit]
    exact getv_of_split l1 l2 me.1 me.2 hn1
  have hremove : removev (b :: l) me.1.name = l1 ++ l2 := by
    rw [hsplit]
    exact removev_of_split l1 l2 me.1 me.2 hn1 hn2
  have hlen2 : 2 ≤ (l1 ++ l2).length := by
    have h := congrArg List.length hsplit
    simp only [List.length_cons, List.length_append] at h hlen ⊢
    omega
  have hnonnil : (l1 ++ l2) ≠ [] := by
    intro hc
    rw [hc] at hlen2
    simp at hlen2
  obtain ⟨e, he⟩ := List.exists_mem_of_ne_nil _ hnonnil
  have hemem : e ∈ b :: l := by
    rw [hsplit]
    rcases List.mem_append.mp he with h | h
    · exact List.mem_append_left _ h
    · exact List.mem_append_right _ (List.mem_cons_of_mem _ h)
  have hminle : me.2 ≤ maxvD (l1 ++ l2) :=
    le_trans (hmin e hemem) (le_maxvD _ e he)
  have hmax : maxvD (l1 ++ l2) = maxvD (b :: l) := by
    rw [maxvD_append] at hminle
    rw [hsplit, maxvD_append, maxvD_append]
    have hmc : maxvD (me :: l2) = max me.2 (maxvD l2) := maxvD_cons me l2
    rw [hmc]
    omega
  have hsum : sumv (l1 ++ l2) + me.2 = sumv (b :: l) := by
    rw [hsplit, sumv_append, sumv_append]
    have hsc : sumv (me :: l2) = me.2 + sumv l2 := sumv_cons me l2
    rw [hsc]
    ring
  have hvals : valsD (b :: l) = valsD l1 ++ me.2 :: valsD l2 := by
    rw [hsplit]
    simp [valsD]
  have hvals2 : valsD (l1 ++ l2) = valsD l1 ++ valsD l2 := by simp [valsD]
  have hnum : (numMaxD (l1 ++ l2) = 1) ↔ (numMaxD (b :: l) = 1) := by
    by_cases hc : me.2 = maxvD (b :: l)
    · have hall : ∀ q ∈ b :: l, q.2 = maxvD (b :: l) := by
        intro q hq
        have h1 := hmin q hq
        have h2 := le_maxvD (b :: l) q hq
        omega
      have hcount1 : numMaxD (b :: l) = (b :: l).length := by
        rw [numMaxD]
        rw [List.count_eq_length.mpr]
        · simp [valsD]
        · intro x hx
          simp only [valsD, List.mem_map] at hx
          obtain ⟨p, hp, hpx⟩ := hx
          rw [← hpx]
          exact (hall p hp).symm
      have hcount2 : numMaxD (l1 ++ l2) = (l1 ++ l2).length := by
        rw [numMaxD]
        rw [hmax, List.count_eq_length.mpr]
        · simp [valsD]
        · intro x hx
          simp only [valsD, List.mem_map] at hx
          obtain ⟨p, hp, hpx⟩ := hx
          rw [← hpx]
          apply (hall p _).symm
          rw [hsplit]
          rcases List.mem_append.mp hp with h | h
          · exact List.mem_append_left _ h
          · exact List.mem_append_right _ (List.mem_cons_of_mem _ h)
      constructor
      · intro h; rw [hcount2] at h; omega
      · intro h
        rw [hcount1] at h
        simp only [List.length_cons] at h hlen
        omega
    · rw [numMaxD, numMaxD, hmax, hvals, hvals2]
      simp only [List.count_append, List.count_cons]
      rw [show (me.2 == maxvD (b :: l)) = false from beq_eq_false_iff_ne.mpr hc]
      simp
  rw [hremove, hgetv]
  refine ⟨hmax, hnum, hsum, hlen2⟩

lemma count_pair_max (v1 v2 : Int) :
    ([v1, v2].count (max v1 v2) = 1) ↔ ¬ v1 = v2 := by
  by_cases hv : v1 = v2
  · subst hv
    simp [List.count_cons]
  · rcases le_total v1 v2 with h | h
    · rw [max_eq_right h]
      simp [List.count_cons, beq_iff_eq, hv]
    · rw [max_eq_left h]
      have hv2 : ¬ v2 = v1 := fun hc => hv hc.symm
      simp [List.count_cons, beq_iff_eq, hv, hv2]

/-- Success of `get_path_list_2` on matched mappings of at least two nodes:
the call succeeds exactly when twice the maximum count is at most the total
plus the deficit, plus one when the maximum count is attained by a single
node. -/
lemma gpl2_success_iff (d : Dict) (t : Int) :
    2 ≤ d.length → NodupNames d → matchedD d → (∀ p ∈ d, 0 ≤ p.2) →
    ((gpl2 d t).1 ≠ none ↔
      2 * maxvD d ≤ sumv d + t + (if numMaxD d = 1 then 1 else 0)) := by
  induction d, t using gpl2.induct with
  | case1 t => intro h2; simp at h2
  | case2 t n => intro h2; simp at h2
  | case3 t n v hv => intro h2; simp at h2
  | case4 t k1 v1 k2 v2 =>
    intro h2 hnd hm hpos
    have hne12 := nodupNames_two k1 k2 v1 v2 hnd
    have hv1 : k1.value = v1 := hm (k1, v1) (List.mem_cons_self _ _)
    have hv2 : k2.value = v2 := hm (k2, v2) (by simp)
    have hp1 : 0 ≤ v1 := hpos (k1, v1) (List.mem_cons_self _ _)
    have hp2 : 0 ≤ v2 := hpos (k2, v2) (by simp)
    refine (gpl2_two_success k1 k2 v1 v2 t hne12 hv1 hv2 hp1 hp2).trans ?_
    have hmv : maxvD [(k1, v1), (k2, v2)] = max v1 v2 := by
      simp only [maxvD, valsD, List.map_cons, List.map_nil, List.foldr_cons, List.foldr_nil]
      omega
    have hsv : sumv [(k1, v1), (k2, v2)] = v1 + v2 := by
      simp [sumv]
    have hn : (numMaxD [(k1, v1), (k2, v2)] = 1) ↔ ¬ v1 = v2 := by
      rw [numMaxD, hmv]
      exact count_pair_max v1 v2
    rw [hmv, hsv]
    simp only [hn]
    rcases le_total v1 v2 with h | h
    · rw [max_eq_right h]
      split_ifs <;> omega
    · rw [max_eq_left h]
      split_ifs <;> omega
  | case5 t e1 e2 e3 rest d0 mk c nd r hnone ih =>
    intro h2 hnd hm hpos
    have hlen3 : 3 ≤ (e1 :: e2 :: e3 :: rest).length := by simp
    obtain ⟨hmax, hnum, hsum, hlen2⟩ := removev_min_transfer _ hlen3 hnd hpos
    have hmax2 : maxvD nd = maxvD d0 := hmax
    have hnum2 : (numMaxD nd = 1) ↔ (numMaxD d0 = 1) := hnum
    have hsum2 : sumv nd + c = sumv d0 := hsum
    have hlen4 : 2 ≤ nd.length := hlen2
    have hiff : (gpl2 nd (t + c)).1 ≠ none ↔
        2 * maxvD nd ≤ sumv nd + (t + c) + (if numMaxD nd = 1 then 1 else 0) :=
      ih hlen4 (nodupNames_removev _ _ hnd) (matchedD_removev _ _ hm)
        (nonneg_removev _ _ hpos)
    show (gpl2 d0 t).1 ≠ none ↔
      2 * maxvD d0 ≤ sumv d0 + t + (if numMaxD d0 = 1 then 1 else 0)
    constructor
    · intro h
      exfalso
      apply h
      show (gpl2 d0 t).1 = none
      rw [gpl2]
      simp only
      rw [show (gpl2 nd (t + c)).1 = none from hnone]
    · intro hrhs
      exfalso
      have hsub : (gpl2 nd (t + c)).1 ≠ none := by
        rw [hiff, hmax2]
        simp only [hnum2]
        omega
      exact hsub hnone
  | case6 t e1 e2 e3 rest d0 mk c nd r l0 hsome ih =>
    intro h2 hnd hm hpos
    have hlen3 : 3 ≤ (e1 :: e2 :: e3 :: rest).length := by simp
    obtain ⟨hmax, hnum, hsum, hlen2⟩ := removev_min_transfer _ hlen3 hnd hpos
    have hmax2 : maxvD nd = maxvD d0 := hmax
    have hnum2 : (numMaxD nd = 1) ↔ (numMaxD d0 = 1) := hnum
    have hsum2 : sumv nd + c = sumv d0 := hsum
    have hlen4 : 2 ≤ nd.length := hlen2
    have hiff : (gpl2 nd (t + c)).1 ≠ none ↔
        2 * maxvD nd ≤ sumv nd + (t + c) + (if numMaxD nd = 1 then 1 else 0) :=
      ih hlen4 (nodupNames_removev _ _ hnd) (matchedD_removev _ _ hm)
        (nonneg_removev _ _ hpos)
    show (gpl2 d0 t).1 ≠ none ↔
      2 * maxvD d0 ≤ sumv d0 + t + (if numMaxD d0 = 1 then 1 else 0)
    constructor
    · intro h
      have hsub : (gpl2 nd (t + c)).1 ≠ none := by
        rw [hsome]
        simp
      rw [hiff, hmax2] at hsub
      simp only [hnum2] at hsub
      omega
    · intro hrhs
      show (gpl2 d0 t).1 ≠ none
      rw [gpl2]
      simp only
      rw [show (gpl2 nd (t + c)).1 = some l0 from hsome]
      simp

/-! ### Characterization of the brute-force search `get_path_list_1` -/

/-- The classical feasibility bound for arrangements with no adjacent
repeats: twice the maximum count is at most the total plus one. -/
def ccBound (d : Dict) : Prop := 2 * maxvD d ≤ sumv d + 1

/-- Completability of the search state: the bound holds and, when it is
tight, the forbidden previous node does not itself carry the maximum. -/
def ccFull (d : Dict) (curr : List Node) : Prop :=
  ccBound d ∧
  ∀ m ∈ curr.getLast?, sumv d + 1 = 2 * maxvD d → ¬ getv d m.name = maxvD d

lemma maxvD_split_max (l1 l2 : Dict) (e : Node × Int) :
    maxvD (l1 ++ e :: l2) = max e.2 (maxvD (l1 ++ l2)) := by
  rw [maxvD_append, maxvD_cons, maxvD_append]
  omega

lemma sumv_split (l1 l2 : Dict) (e : Node × Int) :
    sumv (l1 ++ e :: l2) = e.2 + sumv (l1 ++ l2) := by
  rw [sumv_append, sumv_cons, sumv_append]
  ring

lemma allowedNext_iff (curr : List Node) (n : Node) :
    allowedNext curr n = true ↔ ∀ m ∈ curr.getLast?, ¬ m.name = n.name := by
  rw [allowedNext]
  cases h : curr.getLast? with
  | none => simp
  | some m => simp

lemma allZero_vals (d : Dict) (h : allZero d = true) : ∀ p ∈ d, p.2 = 0 := by
  rw [allZero, List.all_eq_true] at h
  intro p hp
  have := h p hp
  simpa using this

lemma sumv_all_zero (d : Dict) (h : ∀ p ∈ d, p.2 = 0) : sumv d = 0 := by
  induction d with
  | nil => simp [sumv]
  | cons e l ih =>
    rw [sumv_cons, h e (List.mem_cons_self _ _),
      ih (fun p hp => h p (List.mem_cons_of_mem _ hp))]
    ring

lemma cc_of_allZero (d : Dict) (curr : List Node) (h : allZero d = true) :
    ccFull d curr := by
  have hz := allZero_vals d h
  have hs : sumv d = 0 := sumv_all_zero d hz
  have hm : maxvD d = 0 := le_antisymm (maxvD_le d 0 le_rfl (fun p hp => le_of_eq (hz p hp)))
    (maxvD_nonneg d)
  constructor
  · rw [ccBound, hs, hm]; norm_num
  · intro m hmm heq
    rw [hs, hm] at heq
    norm_num at heq

lemma not_allZero_max_pos (d : Dict) (hpos : ∀ p ∈ d, 0 ≤ p.2)
    (hnz : ¬ allZero d = true) : 1 ≤ maxvD d := by
  rw [allZero] at hnz
  rw [List.all_eq_true] at hnz
  push_neg at hnz
  obtain ⟨p, hp, hpz⟩ := hnz
  have h1 : ¬ p.2 = 0 := by simpa using hpz
  have h2 := hpos p hp
  have h3 := le_maxvD d p hp
  omega

lemma mem_keysD_of_mem (d : Dict) (p : Node × Int) (h : p ∈ d) :
    p.1 ∈ keysD d := by
  simp only [keysD, List.mem_map]
  exact ⟨p, h, rfl⟩

/-- The key-search loop succeeds exactly when some pending key admits a
successful recursive call, or every count is already exhausted. -/
lemma gpl1Go_ne_none_iff (d : Dict) (curr : List Node) (pending : List Node) :
    gpl1Go d curr pending ≠ none ↔
      ((∃ n ∈ pending, allowedNext curr n = true ∧ getv d n.name > 0 ∧
          gpl1 (decv d n.name) (curr ++ [n]) ≠ none) ∨ allZero d = true) := by
  induction pending with
  | nil =>
    rw [gpl1Go]
    by_cases h : allZero d = true
    · simp [h]
    · simp [h]
  | cons n ps ih =>
    rw [gpl1Go]
    by_cases hc : (allowedNext curr n = true ∧ getv d n.name > 0)
    · rw [if_pos hc]
      cases hrec : gpl1Go (decv d n.name) (curr ++ [n]) (keysD (decv d n.name)) with
      | some path =>
        simp only [hrec]
        constructor
        · intro _
          left
          refine ⟨n, List.mem_cons_self _ _, hc.1, hc.2, ?_⟩
          show gpl1Go (decv d n.name) (curr ++ [n]) (keysD (decv d n.name)) ≠ none
          rw [hrec]
          simp
        · intro _
          simp
      | none =>
        simp only [hrec]
        rw [ih]
        constructor
        · rintro (⟨m, hm, h1, h2, h3⟩ | hz)
          · exact Or.inl ⟨m, List.mem_cons_of_mem _ hm, h1, h2, h3⟩
          · exact Or.inr hz
        · rintro (⟨m, hm, h1, h2, h3⟩ | hz)
          · rcases List.mem_cons.mp hm with hm | hm
            · subst hm
              exfalso
              apply h3
              show gpl1Go (decv d m.name) (curr ++ [m]) (keysD (decv d m.name)) = none
              exact hrec
            · exact Or.inl ⟨m, hm, h1, h2, h3⟩
          · exact Or.inr hz
    · rw [if_neg hc]
      rw [ih]
      constructor
      · rintro (⟨m, hm, h1, h2, h3⟩ | hz)
        · exact Or.inl ⟨m, List.mem_cons_of_mem _ hm, h1, h2, h3⟩
        · exact Or.inr hz
      · rintro (⟨m, hm, h1, h2, h3⟩ | hz)
        · rcases List.mem_cons.mp hm with hm | hm
          · subst hm
            exact absurd ⟨h1, h2⟩ hc
          · exact Or.inl ⟨m, hm, h1, h2, h3⟩
        · exact Or.inr hz

/-- Backward step: if some admissible key keeps the state completable after
its decrement, the state was completable. -/
lemma cc_step_mpr (d : Dict) (curr : List Node)
    (hnd : NodupNames d) (_hpos : ∀ p ∈ d, 0 ≤ p.2)
    (h : ∃ n ∈ keysD d, allowedNext curr n = true ∧ getv d n.name > 0 ∧
      ccFull (decv d n.name) (curr ++ [n])) :
    ccFull d curr := by
  obtain ⟨n, hnk, hall, hgt, hcc⟩ := h
  obtain ⟨k, v, hkv, hkn⟩ : ∃ k v, (k, v) ∈ d ∧ k.name = n.name := by
    obtain ⟨p, hp, hps, hpv⟩ := getv_pos_mem d n.name (by omega)
    exact ⟨p.1, p.2, hp, hps⟩
  obtain ⟨l1, l2, hsplit, h1, h2⟩ := split_of_mem_nodup d k v hkv hnd
  have hgv : getv d k.name = v := by
    rw [hsplit]
    exact getv_of_split l1 l2 k v h1
  have hvgt : v > 0 := by
    rw [← hkn, hgv] at hgt
    exact hgt
  have hdec : decv d n.name = l1 ++ (k, v - 1) :: l2 := by
    rw [← hkn, hsplit]
    exact decv_of_split l1 l2 k v h1
  set A := maxvD (l1 ++ l2) with hAdef
  set S := sumv (l1 ++ l2) with hSdef
  have hWd : maxvD d = max v A := by
    rw [hsplit]
    exact maxvD_split_max l1 l2 (k, v)
  have hSd : sumv d = v + S := by
    rw [hsplit]
    exact sumv_split l1 l2 (k, v)
  have hW2 : maxvD (decv d n.name) = max (v - 1) A := by
    rw [hdec]
    exact maxvD_split_max l1 l2 (k, v - 1)
  have hS2 : sumv (decv d n.name) = (v - 1) + S := by
    rw [hdec]
    exact sumv_split l1 l2 (k, v - 1)
  have hgdec : getv (decv d n.name) n.name = v - 1 := by
    rw [hdec, ← hkn]
    exact getv_of_split l1 l2 k (v - 1) h1
  obtain ⟨hb, hclause⟩ := hcc
  rw [ccBound, hW2, hS2] at hb
  have hclause2 := hclause n (by rw [Option.mem_def, List.getLast?_concat])
  rw [hS2, hW2, hgdec] at hclause2
  have hA0 : 0 ≤ A := maxvD_nonneg _
  constructor
  · rw [ccBound, hWd, hSd]
    rcases le_or_lt A (v - 1) with hA1 | hA1
    · rw [max_eq_left hA1] at hb
      rw [max_eq_left hA1] at hclause2
      have hne : ¬ ((v - 1) + S + 1 = 2 * (v - 1)) := fun heq2 => hclause2 heq2 rfl
      rw [max_eq_left (by omega : A ≤ v)]
      omega
    · rw [max_eq_right (by omega : v - 1 ≤ A)] at hb
      rw [max_eq_right (by omega : v ≤ A)]
      omega
  · intro m hm heq hgvm
    rw [hSd, hWd] at heq
    rw [hWd] at hgvm
    have hmn : ¬ m.name = n.name := (allowedNext_iff curr n).mp hall m hm
    have hmk : ¬ m.name = k.name := by
      rw [hkn]
      exact hmn
    rcases le_or_lt A (v - 1) with hA1 | hA1
    · rw [max_eq_left (by omega : A ≤ v)] at heq hgvm
      rw [hsplit, getv_split_ne l1 l2 k v m.name hmk] at hgvm
      have hvne : getv (l1 ++ l2) m.name ≠ 0 := by omega
      obtain ⟨e, he, hes, hev⟩ := getv_pos_mem (l1 ++ l2) m.name hvne
      have hle := le_maxvD (l1 ++ l2) e he
      rw [hgvm] at hev
      omega
    · rw [max_eq_right (by omega : v ≤ A)] at heq
      rw [max_eq_right (by omega : v - 1 ≤ A)] at hb
      omega

/-- Forward step: a completable state with a not-yet-exhausted mapping has
an admissible key whose decrement keeps it completable. -/
lemma cc_step_mp (d : Dict) (curr : List Node)
    (hnd : NodupNames d) (hpos : ∀ p ∈ d, 0 ≤ p.2)
    (hcc : ccFull d curr) (hnz : ¬ allZero d = true) :
    ∃ n ∈ keysD d, allowedNext curr n = true ∧ getv d n.name > 0 ∧
      ccFull (decv d n.name) (curr ++ [n]) := by
  have hW1 : 1 ≤ maxvD d := not_allZero_max_pos d hpos hnz
  obtain ⟨hb, hclause⟩ := hcc
  rw [ccBound] at hb
  by_cases hex : ∃ p ∈ d, p.2 = maxvD d ∧ allowedNext curr p.1 = true
  · -- an entry of maximal count is admissible: pick it
    obtain ⟨p, hp, hpv, hpall⟩ := hex
    set W := maxvD d with hWdef
    have hpW : (p.1, W) ∈ d := by rw [← hpv]; exact hp
    obtain ⟨l1, l2, hsplit, h1, h2⟩ := split_of_mem_nodup d p.1 W hpW hnd
    have hgv : getv d p.1.name = W := by
      rw [hsplit]
      exact getv_of_split l1 l2 p.1 W h1
    have hdec : decv d p.1.name = l1 ++ (p.1, W - 1) :: l2 := by
      rw [hsplit]
      exact decv_of_split l1 l2 p.1 W h1
    have hmax_d : maxvD d = max W (maxvD (l1 ++ l2)) := by
      rw [hsplit]
      exact maxvD_split_max l1 l2 (p.1, W)
    have hsum_d : sumv d = W + sumv (l1 ++ l2) := by
      rw [hsplit]
      exact sumv_split l1 l2 (p.1, W)
    have hWW : W = max W (maxvD (l1 ++ l2)) := hWdef.trans hmax_d
    have hAle : maxvD (l1 ++ l2) ≤ W := by omega
    have hW2 : maxvD (decv d p.1.name) = max (W - 1) (maxvD (l1 ++ l2)) := by
      rw [hdec]
      exact maxvD_split_max l1 l2 (p.1, W - 1)
    have hS2 : sumv (decv d p.1.name) = (W - 1) + sumv (l1 ++ l2) := by
      rw [hdec]
      exact sumv_split l1 l2 (p.1, W - 1)
    have hgdec : getv (decv d p.1.name) p.1.name = W - 1 := by
      rw [hdec]
      exact getv_of_split l1 l2 p.1 (W - 1) h1
    rw [hsum_d] at hb
    refine ⟨p.1, mem_keysD_of_mem d p hp, hpall, by rw [hgv]; omega, ?_, ?_⟩
    · rw [ccBound, hW2, hS2]
      rcases le_or_lt (maxvD (l1 ++ l2)) (W - 1) with hA1 | hA1
      · rw [max_eq_left hA1]
        omega
      · rw [max_eq_right (by omega : W - 1 ≤ maxvD (l1 ++ l2))]
        have hAW : maxvD (l1 ++ l2) = W := by omega
        obtain ⟨e, he, hev⟩ := maxvD_exists (l1 ++ l2) (by omega)
        have hposl : ∀ q ∈ l1 ++ l2, 0 ≤ q.2 := by
          intro q hq
          apply hpos q
          rw [hsplit]
          rcases List.mem_append.mp hq with h | h
          · exact List.mem_append_left _ h
          · exact List.mem_append_right _ (List.mem_cons_of_mem _ h)
        have := le_sumv_of_mem (l1 ++ l2) e hposl he
        omega
    · intro m hm heq
      rw [Option.mem_def, List.getLast?_concat] at hm
      injection hm with hm
      rw [← hm]
      rw [hS2, hW2] at heq
      rw [hgdec, hW2]
      rcases le_or_lt (maxvD (l1 ++ l2)) (W - 1) with hA1 | hA1
      · rw [max_eq_left hA1] at heq ⊢
        omega
      · rw [max_eq_right (by omega : W - 1 ≤ maxvD (l1 ++ l2))] at heq ⊢
        omega
  · -- every entry of maximal count is blocked by the previous node
    push_neg at hex
    cases hlast : curr.getLast? with
    | none =>
      exfalso
      obtain ⟨pW, hpW, hpWv⟩ := maxvD_exists d (by omega)
      apply hex pW hpW hpWv
      rw [allowedNext_iff]
      intro m hm
      rw [hlast] at hm
      simp at hm
    | some m0 =>
      set W := maxvD d with hWdef
      obtain ⟨pW, hpW, hpWv⟩ := maxvD_exists d (by omega)
      have hnall := hex pW hpW hpWv
      have hname : m0.name = pW.1.name := by
        by_contra hc
        apply hnall
        rw [allowedNext_iff]
        intro m hm
        rw [hlast, Option.mem_def] at hm
        injection hm with hm
        rw [← hm]
        exact hc
      have hpW2 : (pW.1, W) ∈ d := by rw [hWdef, ← hpWv]; exact hpW
      obtain ⟨L1, L2, hsplitW, hw1, hw2⟩ := split_of_mem_nodup d pW.1 W hpW2 hnd
      have hgv0 : getv d m0.name = W := by
        rw [hname, hsplitW]
        exact getv_of_split L1 L2 pW.1 W hw1
      have hclause0 := hclause m0 (by rw [Option.mem_def, hlast])
      have hSge : 2 * W ≤ sumv d := by
        by_cases hq : sumv d + 1 = 2 * W
        · exact absurd hgv0 (hclause0 hq)
        · omega
      have hsumW : sumv d = W + sumv (L1 ++ L2) := by
        rw [hsplitW]
        exact sumv_split L1 L2 (pW.1, W)
      have hposW : ∀ q ∈ L1 ++ L2, 0 ≤ q.2 := by
        intro q hq
        apply hpos q
        rw [hsplitW]
        rcases List.mem_append.mp hq with h | h
        · exact List.mem_append_left _ h
        · exact List.mem_append_right _ (List.mem_cons_of_mem _ h)
      obtain ⟨e, he, hev⟩ := exists_pos_of_sumv_pos (L1 ++ L2) hposW (by omega)
      have hene : ¬ e.1.name = pW.1.name := by
        intro hc
        rcases List.mem_append.mp he with h | h
        · apply hw1
          simp only [namesD, List.mem_map]
          exact ⟨e, h, hc⟩
        · apply hw2
          simp only [namesD, List.mem_map]
          exact ⟨e, h, hc⟩
      have halle : allowedNext curr e.1 = true := by
        rw [allowedNext_iff]
        intro m hm
        rw [hlast, Option.mem_def] at hm
        injection hm with hm
        rw [← hm, hname]
        exact fun hc => hene hc.symm
      have heq_pair : (e.1, e.2) ∈ d := by
        rw [hsplitW]
        rcases List.mem_append.mp he with h | h
        · exact List.mem_append_left _ h
        · exact List.mem_append_right _ (List.mem_cons_of_mem _ h)
      obtain ⟨l1, l2, hsplit, h1, h2⟩ := split_of_mem_nodup d e.1 e.2 heq_pair hnd
      have hgve : getv d e.1.name = e.2 := by
        rw [hsplit]
        exact getv_of_split l1 l2 e.1 e.2 h1
      have hdec : decv d e.1.name = l1 ++ (e.1, e.2 - 1) :: l2 := by
        rw [hsplit]
        exact decv_of_split l1 l2 e.1 e.2 h1
      have hW2 : maxvD (decv d e.1.name) = max (e.2 - 1) (maxvD (l1 ++ l2)) := by
        rw [hdec]
        exact maxvD_split_max l1 l2 (e.1, e.2 - 1)
      have hS2 : sumv (decv d e.1.name) = (e.2 - 1) + sumv (l1 ++ l2) := by
        rw [hdec]
        exact sumv_split l1 l2 (e.1, e.2 - 1)
      have hgdec : getv (decv d e.1.name) e.1.name = e.2 - 1 := by
        rw [hdec]
        exact getv_of_split l1 l2 e.1 (e.2 - 1) h1
      have hsum_e : sumv d = e.2 + sumv (l1 ++ l2) := by
        rw [hsplit]
        exact sumv_split l1 l2 (e.1, e.2)
      have hpWmem : (pW.1, W) ∈ l1 ++ l2 := by
        have hmem := hpW2
        rw [hsplit] at hmem
        rcases List.mem_append.mp hmem with h | h
        · exact List.mem_append_left _ h
        · rcases List.mem_cons.mp h with h | h
          · exfalso
            apply hene
            have := congrArg (fun q => (Prod.fst q).name) h
            simp only at this
            exact this.symm
          · exact List.mem_append_right _ h
      have hAW : maxvD (l1 ++ l2) = W := by
        apply le_antisymm
        · apply maxvD_le (l1 ++ l2) W (by omega)
          intro q hq
          have hqd : q ∈ d := by
            rw [hsplit]
            rcases List.mem_append.mp hq with h | h
            · exact List.mem_append_left _ h
            · exact List.mem_append_right _ (List.mem_cons_of_mem _ h)
          have := le_maxvD d q hqd
          rw [← hWdef] at this
          exact this
        · exact le_maxvD (l1 ++ l2) (pW.1, W) hpWmem
      have hevW : e.2 ≤ W := by
        have := le_maxvD d (e.1, e.2) heq_pair
        rw [← hWdef] at this
        exact this
      refine ⟨e.1, mem_keysD_of_mem d (e.1, e.2) heq_pair, halle, by rw [hgve]; omega, ?_, ?_⟩
      · rw [ccBound, hW2, hS2, hAW]
        rw [max_eq_right (by omega : e.2 - 1 ≤ W)]
        omega
      · intro m hm heq
        rw [Option.mem_def, List.getLast?_concat] at hm
        injection hm with hm
        rw [← hm]
        rw [hgdec, hW2, hAW]
        rw [max_eq_right (by omega : e.2 - 1 ≤ W)]
        omega

/-- `get_path_list_1` succeeds exactly on completable states: the classical
feasibility bound holds, and when it is tight the node placed last does not
carry the maximum count. -/
lemma gpl1_success_iff (d : Dict) (curr : List Node) (hnd : NodupNames d)
    (hpos : ∀ p ∈ d, 0 ≤ p.2) :
    (gpl1 d curr ≠ none ↔ ccFull d curr) := by
  rw [gpl1, gpl1Go_ne_none_iff]
  constructor
  · rintro (⟨n, hn, hall, hgt, hrec⟩ | hz)
    · have hnd2 : NodupNames (decv d n.name) := by
        rw [NodupNames, namesD_decv]
        exact hnd
      have hpos2 : ∀ p ∈ decv d n.name, 0 ≤ p.2 := decv_nonneg d n.name hpos (by omega)
      have hrec2 := (gpl1_success_iff (decv d n.name) (curr ++ [n]) hnd2 hpos2).mp hrec
      exact cc_step_mpr d curr hnd hpos ⟨n, hn, hall, hgt, hrec2⟩
    · exact cc_of_allZero d curr hz
  · intro hcc
    by_cases hz : allZero d = true
    · exact Or.inr hz
    · obtain ⟨n, hn, hall, hgt, hcc2⟩ := cc_step_mp d curr hnd hpos hcc hz
      have hnd2 : NodupNames (decv d n.name) := by
        rw [NodupNames, namesD_decv]
        exact hnd
      have hpos2 : ∀ p ∈ decv d n.name, 0 ≤ p.2 := decv_nonneg d n.name hpos (by omega)
      exact Or.inl ⟨n, hn, hall, hgt,
        (gpl1_success_iff (decv d n.name) (curr ++ [n]) hnd2 hpos2).mpr hcc2⟩
termination_by sumPos d
decreasing_by
  · exact sumPos_decv d n.name hgt
  · exact sumPos_decv d n.name hgt

/-! ### Claim C3 -/

lemma sumv_ge_two_max (d : Dict) (hpos : ∀ p ∈ d, 0 ≤ p.2)
    (h2 : 2 ≤ numMaxD d) : 2 * maxvD d ≤ sumv d := by
  set W := maxvD d with hW
  have h1 : W ∈ valsD d := by
    rw [← List.count_pos_iff]
    rw [numMaxD, ← hW] at h2
    omega
  simp only [valsD, List.mem_map] at h1
  obtain ⟨p, hp, hpv⟩ := h1
  have hp2 : (p.1, W) ∈ d := by rw [← hpv]; exact hp
  obtain ⟨l1, l2, hsplit⟩ := List.append_of_mem hp2
  have hsum : sumv d = W + sumv (l1 ++ l2) := by
    rw [hsplit]
    exact sumv_split l1 l2 (p.1, W)
  have hcount : numMaxD d = (valsD (l1 ++ l2)).count W + 1 := by
    rw [numMaxD, ← hW, hsplit]
    have hv1 : valsD (l1 ++ (p.1, W) :: l2) = valsD l1 ++ W :: valsD l2 := by
      simp [valsD]
    have hv2 : valsD (l1 ++ l2) = valsD l1 ++ valsD l2 := by simp [valsD]
    rw [hv1, hv2]
    simp only [List.count_append, List.count_cons]
    simp
    omega
  have hms : W ∈ valsD (l1 ++ l2) := by
    rw [← List.count_pos_iff]
    omega
  simp only [valsD, List.mem_map] at hms
  obtain ⟨q, hq, hqv⟩ := hms
  have hposl : ∀ x ∈ l1 ++ l2, 0 ≤ x.2 := by
    intro x hx
    apply hpos x
    rw [hsplit]
    rcases List.mem_append.mp hx with h | h
    · exact List.mem_append_left _ h
    · exact List.mem_append_right _ (List.mem_cons_of_mem _ h)
  have := le_sumv_of_mem (l1 ++ l2) q hposl hq
  omega

/-- C3 (amended): on every budget mapping of distinct nodes with positive
counts whose stored `value` attributes equal the counts, the structural
algorithm `get_path_list_2` (target 0) returns a sequence exactly when the
brute-force search `get_path_list_1` (empty current path) does. -/
theorem gpl2_agrees_with_gpl1 (d : Dict)
    (hnd : NodupNames d) (hm : matchedD d) (hpos : ∀ p ∈ d, 1 ≤ p.2) :
    ((gpl2 d 0).1 ≠ none ↔ gpl1 d [] ≠ none) := by
  have hpos0 : ∀ p ∈ d, 0 ≤ p.2 := fun p hp => le_trans zero_le_one (hpos p hp)
  rw [gpl1_success_iff d [] hnd hpos0]
  have hccshape : ccFull d [] ↔ ccBound d := by
    constructor
    · exact fun h => h.1
    · intro h
      refine ⟨h, ?_⟩
      intro m hm2
      simp at hm2
  rw [hccshape]
  rcases d with _ | ⟨e1, d1⟩
  · have h1 : (gpl2 ([] : Dict) 0).1 ≠ none := by
      rw [gpl2]
      simp
    have h2 : ccBound [] := by
      rw [ccBound]
      simp [maxvD, sumv, valsD]
    exact iff_of_true h1 h2
  rcases d1 with _ | ⟨e2, d2⟩
  · obtain ⟨k, v⟩ := e1
    have hv1 : 1 ≤ v := hpos (k, v) (List.mem_cons_self _ _)
    have hL : (gpl2 [(k, v)] 0).1 ≠ none ↔ v = 1 := by
      by_cases h : v = 1 <;> rw [gpl2] <;> simp [h]
    rw [hL, ccBound]
    have hmv : maxvD [(k, v)] = v := by
      simp only [maxvD, valsD, List.map_cons, List.map_nil, List.foldr_cons, List.foldr_nil]
      omega
    have hsv : sumv [(k, v)] = v := by simp [sumv]
    rw [hmv, hsv]
    omega
  · rw [gpl2_success_iff (e1 :: e2 :: d2) 0 (by simp) hnd hm hpos0, ccBound]
    by_cases hnum : numMaxD (e1 :: e2 :: d2) = 1
    · rw [if_pos hnum]
      omega
    · rw [if_neg hnum]
      have he1 := hpos e1 (List.mem_cons_self _ _)
      have hle1 := le_maxvD (e1 :: e2 :: d2) e1 (List.mem_cons_self _ _)
      have hmem : maxvD (e1 :: e2 :: d2) ∈ valsD (e1 :: e2 :: d2) := by
        have hne : maxvD (e1 :: e2 :: d2) ≠ 0 := by omega
        obtain ⟨p, hp, hpv⟩ := maxvD_exists _ hne
        simp only [valsD, List.mem_map]
        exact ⟨p, hp, hpv⟩
      have hc1 : 0 < (valsD (e1 :: e2 :: d2)).count (maxvD (e1 :: e2 :: d2)) :=
        List.count_pos_iff.mpr hmem
      have hc2 : 2 ≤ numMaxD (e1 :: e2 :: d2) := by
        rw [numMaxD] at hnum ⊢
        omega
      have hS := sumv_ge_two_max _ hpos0 hc2
      constructor
      · intro _
        omega
      · intro _
        omega

/-- C3 counterexample: a two-node positive budget mapping whose stored
`value` attributes disagree with the counts; the brute-force search finds a
traversal but `get_path_list_2` reports failure, because its pivot selection
consults the `value` attributes. -/
theorem gpl2_gpl1_disagree_counterexample :
    (∀ p ∈ ([(⟨"a", 2⟩, 1), (⟨"b", 1⟩, 2)] : Dict), 1 ≤ p.2) ∧
    (gpl2 [(⟨"a", 2⟩, 1), (⟨"b", 1⟩, 2)] 0).1 = none ∧
    gpl1 [(⟨"a", 2⟩, 1), (⟨"b", 1⟩, 2)] [] = some [⟨"b", 1⟩, ⟨"a", 2⟩, ⟨"b", 1⟩] := by
  refine ⟨by decide, ?_, ?_⟩
  · simp [gpl2, pick2, getv, setv, reflect]
  · simp [gpl1, gpl1Go, keysD, getv, decv, allowedNext, allZero]

/-- Witness for C3 at the default puzzle `{alpha ↦ 1, bravo ↦ 2, charlie ↦ 3}`. -/
theorem gpl2_agrees_with_gpl1_witness :
    NodupNames [(⟨"alpha", 1⟩, 1), (⟨"bravo", 2⟩, 2), (⟨"charlie", 3⟩, 3)] ∧
    matchedD [(⟨"alpha", 1⟩, 1), (⟨"bravo", 2⟩, 2), (⟨"charlie", 3⟩, 3)] ∧
    (∀ p ∈ ([(⟨"alpha", 1⟩, 1), (⟨"bravo", 2⟩, 2), (⟨"charlie", 3⟩, 3)] : Dict), 1 ≤ p.2) ∧
    ((gpl2 [(⟨"alpha", 1⟩, 1), (⟨"bravo", 2⟩, 2), (⟨"charlie", 3⟩, 3)] 0).1 ≠ none ↔
      gpl1 [(⟨"alpha", 1⟩, 1), (⟨"bravo", 2⟩, 2), (⟨"charlie", 3⟩, 3)] [] ≠ none) :=
  ⟨by decide, by decide, by decide,
   gpl2_agrees_with_gpl1 [(⟨"alpha", 1⟩, 1), (⟨"bravo", 2⟩, 2), (⟨"charlie", 3⟩, 3)]
     (by decide) (by decide) (by decide)⟩

/-! ### Claim C10 -/

/-- `get_path_list_1` with the dictionary objects held in an explicit store
(the Python heap): address `a` holds the dictionary passed by reference.
`d = node_dict.copy()` allocates a fresh object at the end of the store,
and `d[n] -= 1` is performed on that fresh object; no statement of the
source writes to `node_dict`'s own address.  One fuel unit is spent per
step; exhausted fuel reports failure without touching the store. -/
def gpl1H (fuel : Nat) (store : List Dict) (a : Nat) (curr : List Node)
    (pending : List Node) : Option (List Node) × List Dict :=
  match fuel with
  | 0 => (none, store)
  | fuel + 1 =>
    match pending with
    | [] => (if allZero (store.getD a []) then some curr else none, store)
    | n :: ps =>
      if allowedNext curr n ∧ getv (store.getD a []) n.name > 0 then
        let dcopy := decv (store.getD a []) n.name
        match gpl1H fuel (store ++ [dcopy]) store.length (curr ++ [n]) (keysD dcopy) with
        | (some path, s2) => (some path, s2)
        | (none, s2) => gpl1H fuel s2 a curr ps
      else gpl1H fuel store a curr ps

/-- Frame property of the search: the store only grows, and every
pre-existing address holds the same dictionary afterwards. -/
lemma gpl1H_frame (fuel : Nat) (store : List Dict) (a : Nat) (curr : List Node)
    (pending : List Node) :
    store.length ≤ (gpl1H fuel store a curr pending).2.length ∧
    ∀ i, i < store.length →
      (gpl1H fuel store a curr pending).2.getD i [] = store.getD i [] := by
  induction fuel generalizing store a curr pending with
  | zero =>
    rw [gpl1H]
    exact ⟨le_rfl, fun i _ => rfl⟩
  | succ fuel ih =>
    cases pending with
    | nil =>
      rw [gpl1H]
      exact ⟨le_rfl, fun i _ => rfl⟩
    | cons n ps =>
      rw [gpl1H]
      by_cases hc : (allowedNext curr n ∧ getv (store.getD a []) n.name > 0)
      · rw [if_pos hc]
        simp only
        have ih1 := ih (store ++ [decv (store.getD a []) n.name]) store.length
          (curr ++ [n]) (keysD (decv (store.getD a []) n.name))
        cases hres : gpl1H fuel (store ++ [decv (store.getD a []) n.name]) store.length
            (curr ++ [n]) (keysD (decv (store.getD a []) n.name)) with
        | mk r s2 =>
          rw [hres] at ih1
          simp only at ih1
          cases r with
          | some path =>
            simp only
            refine ⟨?_, ?_⟩
            · calc store.length ≤ (store ++ [decv (store.getD a []) n.name]).length := by simp
                _ ≤ s2.length := ih1.1
            · intro i hi
              have h1 := ih1.2 i (by simp only [List.length_append, List.length_cons]; omega)
              rw [h1]
              exact List.getD_append _ _ _ _ hi
          | none =>
            simp only
            have ih2 := ih s2 a curr ps
            refine ⟨?_, ?_⟩
            · calc store.length ≤ (store ++ [decv (store.getD a []) n.name]).length := by simp
                _ ≤ s2.length := ih1.1
                _ ≤ _ := ih2.1
            · intro i hi
              have hi2 : i < s2.length := by
                have hle : (store ++ [decv (store.getD a []) n.name]).length ≤ s2.length := ih1.1
                simp only [List.length_append, List.length_cons] at hle
                omega
              have h2 := ih2.2 i hi2
              rw [h2]
              have h1 := ih1.2 i (by simp only [List.length_append, List.length_cons]; omega)
              rw [h1]
              exact List.getD_append _ _ _ _ hi
      · rw [if_neg hc]
        exact ih store a curr ps

/-- C10: `get_path_list_1` never mutates the `node_dict` passed in: after
the call returns (a sequence or `none`), the dictionary at the argument's
address — indeed at every pre-existing address — holds exactly the same
keys and counts as before, for every fuel bound.  (`curr_path_list` is
likewise only read: the source extends it as the fresh list
`curr_path_list + [n]`.) -/
theorem gpl1_no_argument_mutation (fuel : Nat) (store : List Dict) (a : Nat)
    (curr : List Node) (ha : a < store.length) :
    (gpl1H fuel store a curr (keysD (store.getD a []))).2.getD a [] = store.getD a [] ∧
    ∀ i, i < store.length →
      (gpl1H fuel store a curr (keysD (store.getD a []))).2.getD i [] = store.getD i [] := by
  have h := gpl1H_frame fuel store a curr (keysD (store.getD a []))
  exact ⟨h.2 a ha, h.2⟩

/-- Witness for C10: a two-node store cell, searched with ample fuel. -/
theorem gpl1_no_argument_mutation_witness :
    (0 : Nat) < ([[(⟨"a", 1⟩, 1), (⟨"b", 2⟩, 2)]] : List Dict).length ∧
    ((gpl1H 32 [[(⟨"a", 1⟩, 1), (⟨"b", 2⟩, 2)]] 0 []
        (keysD (([[(⟨"a", 1⟩, 1), (⟨"b", 2⟩, 2)]] : List Dict).getD 0 []))).2.getD 0 [] =
      ([[(⟨"a", 1⟩, 1), (⟨"b", 2⟩, 2)]] : List Dict).getD 0 []) ∧
    (∀ i, i < ([[(⟨"a", 1⟩, 1), (⟨"b", 2⟩, 2)]] : List Dict).length →
      (gpl1H 32 [[(⟨"a", 1⟩, 1), (⟨"b", 2⟩, 2)]] 0 []
          (keysD (([[(⟨"a", 1⟩, 1), (⟨"b", 2⟩, 2)]] : List Dict).getD 0 []))).2.getD i [] =
        ([[(⟨"a", 1⟩, 1), (⟨"b", 2⟩, 2)]] : List Dict).getD i []) :=
  ⟨by decide,
   (gpl1_no_argument_mutation 32 [[(⟨"a", 1⟩, 1), (⟨"b", 2⟩, 2)]] 0 [] (by decide)).1,
   (gpl1_no_argument_mutation 32 [[(⟨"a", 1⟩, 1), (⟨"b", 2⟩, 2)]] 0 [] (by decide)).2⟩

/-- Sanity check: with sufficient fuel the store-model search computes the
same answer as the pure embedding on the default two-node puzzle. -/
theorem gpl1H_matches_gpl1_example :
    (gpl1H 32 [[(⟨"a", 1⟩, 1), (⟨"b", 2⟩, 2)]] 0 []
      (keysD (([[(⟨"a", 1⟩, 1), (⟨"b", 2⟩, 2)]] : List Dict).getD 0 []))).1 =
    gpl1 [(⟨"a", 1⟩, 1), (⟨"b", 2⟩, 2)] [] := by
  simp [gpl1H, gpl1, gpl1Go, keysD, getv, decv, allowedNext, allZero]

end Spidertrot
